import Mathlib

/-!
Verification of the settlement-simulation core (resource ledger, construction
allocation, interaction points, construction completion, placement validation,
porter fetch logic, and the grid pathfinder) against its specification.

All definitions are shallow embeddings of the JavaScript source:

* JavaScript numbers that only ever hold integers are modelled as `ℤ`
  (resource counts, grid coordinates) or `ℚ` (world coordinates, timers).
* JavaScript truthiness on numbers is modelled explicitly: a number is falsy
  exactly when it is `0` (`undefined` lookups are merged with `0` whenever the
  code treats both identically, which is noted at each definition).
* JavaScript objects used as finite maps are modelled as association lists or
  total functions with default `0`, as noted per definition.
-/

/-- The nine resource types from `Enums.js` (`ResourceType`). -/
inductive ResourceType where
  | wood | stone | ironOre | iron | plank | wheat | flour | bread | meat
deriving DecidableEq, Repr

/-- The ten building types from `Enums.js` (`BuildingType`). -/
inductive BuildingType where
  | warehouse | woodcutter | sawmill | stonemason | mine
  | ironsmith | farm | mill | bakery | hunter
deriving DecidableEq, Repr

/-- The seven terrain types from `Enums.js` (`TerrainType`). -/
inductive TerrainType where
  | grass | water | stone | mountain | forest | sand | snow
deriving DecidableEq, Repr

/-!
## ResourceManager (`ResourceManager.js`)

`this.resources` is a JS object mapping resource-type strings to numbers.
`getResource` returns `this.resources[type] || 0`, and every truthiness test
(`!this.resources[type]`) treats an absent key and a stored `0` identically,
so the object is modelled as a total function `ResourceType → ℤ` where the
default/absent value is `0`.  A `requirements` argument is a JS object, i.e.
an association list with pairwise-distinct keys.
-/

/-- Ledger state: total map with default 0 (absent key ≡ stored 0). -/
abbrev Ledger : Type := ResourceType → ℤ

/-- The constructor's starting values (`ResourceManager` constructor). -/
def initialLedger : Ledger := fun t =>
  match t with
  | .wood => 20 | .stone => 10 | .ironOre => 0 | .iron => 0
  | .plank => 10 | .wheat => 0 | .flour => 0 | .bread => 10 | .meat => 5

/-- `getResource(type)`: `this.resources[type] || 0`. -/
def getResource (r : Ledger) (t : ResourceType) : ℤ := r t

/-- `addResource(type, amount)`: initialises an absent entry to 0 and adds.
Always returns `true`. -/
def addResource (r : Ledger) (t : ResourceType) (amount : ℤ) : Ledger :=
  fun u => if u = t then r t + amount else r u

/-- `removeResource(type, amount)` returns `(newState, result)`:
`if (!this.resources[type] || this.resources[type] < amount) return false;`
then subtracts.  `!x` on a number is true exactly when the number is 0 (or
the key is absent, which the model merges with 0). -/
def removeResource (r : Ledger) (t : ResourceType) (amount : ℤ) : Ledger × Bool :=
  if r t = 0 ∨ r t < amount then (r, false)
  else (fun u => if u = t then r t - amount else r u, true)

/-- A requirements map: association list with pairwise-distinct keys
(a JS object cannot repeat a key). -/
abbrev Requirements : Type := List (ResourceType × ℤ)

/-- `hasResources(requirements)`: every entry must have a truthy (non-zero)
current count that is not below the required amount. -/
def hasResources (r : Ledger) (reqs : Requirements) : Bool :=
  reqs.all fun p => !(r p.1 = 0 ∨ r p.1 < p.2 : Bool)

/-- `consumeResources(requirements)` returns `(newState, result)`: checks
`hasResources` first, then subtracts every entry. -/
def consumeResources (r : Ledger) (reqs : Requirements) : Ledger × Bool :=
  if hasResources r reqs then
    (reqs.foldl (fun acc p => fun u => if u = p.1 then acc u - p.2 else acc u) r, true)
  else (r, false)

/-- `consumeResource(type, amount)` is an alias for `removeResource`. -/
def consumeResource (r : Ledger) (t : ResourceType) (amount : ℤ) : Ledger × Bool :=
  removeResource r t amount

section LedgerLemmas

/-- Membership of a key in a requirements list. -/
def reqKeys (reqs : Requirements) : List ResourceType := reqs.map Prod.fst

theorem hasResources_iff_of_pos (r : Ledger) (reqs : Requirements)
    (hpos : ∀ p ∈ reqs, 0 < p.2) :
    hasResources r reqs = true ↔ ∀ p ∈ reqs, p.2 ≤ r p.1 := by
  unfold hasResources
  rw [List.all_eq_true]
  constructor
  · intro h p hp
    have := h p hp
    have hp2 := hpos p hp
    simp only [Bool.not_eq_true', decide_eq_false_iff_not, not_or, not_lt] at this
    exact this.2
  · intro h p hp
    have h1 := h p hp
    have hp2 := hpos p hp
    simp only [Bool.not_eq_true', decide_eq_false_iff_not, not_or, not_lt]
    exact ⟨by omega, h1⟩

/-- Evaluation of the consuming fold at a key, given the keys are distinct. -/
theorem consume_foldl_eval (reqs : Requirements) (r : Ledger) (u : ResourceType)
    (hnd : (reqKeys reqs).Nodup) :
    (reqs.foldl (fun acc p => fun v => if v = p.1 then acc v - p.2 else acc v) r) u =
      (match reqs.find? (fun p => p.1 = u) with
       | some p => r u - p.2
       | none => r u) := by
  induction reqs generalizing r with
  | nil => rfl
  | cons q rest ih =>
    have hnd' : (reqKeys rest).Nodup := (List.nodup_cons.mp hnd).2
    have hq : q.1 ∉ reqKeys rest := (List.nodup_cons.mp hnd).1
    simp only [List.foldl_cons]
    rw [ih _ hnd']
    by_cases hu : q.1 = u
    · subst hu
      have hfind : rest.find? (fun p => p.1 = q.1) = none := by
        rw [List.find?_eq_none]
        intro p hp
        simp only [decide_eq_true_eq]
        intro hpq
        exact hq (by simpa [reqKeys, hpq] using List.mem_map_of_mem Prod.fst hp)
      have hd : (decide (q.1 = q.1)) = true := by simp
      simp only [List.find?_cons, hd, hfind]
      simp
    · have : (decide (q.1 = u)) = false := by simp [hu]
      simp only [List.find?_cons, this]
      cases hfind : rest.find? (fun p => p.1 = u) with
      | none => simp [Ne.symm hu]
      | some p => simp [Ne.symm hu]

/-- `hasResources` success forces every entry to be satisfied. -/
theorem hasResources_true_le (r : Ledger) (reqs : Requirements)
    (h : hasResources r reqs = true) : ∀ p ∈ reqs, p.2 ≤ r p.1 := by
  intro p hp
  unfold hasResources at h
  rw [List.all_eq_true] at h
  have := h p hp
  simp only [Bool.not_eq_true', decide_eq_false_iff_not, not_or, not_lt] at this
  exact this.2

/-- With pairwise-distinct keys, `find?` on the key of a member returns that
member. -/
theorem find?_key_self (reqs : Requirements) (p : ResourceType × ℤ)
    (hnd : (reqKeys reqs).Nodup) (hp : p ∈ reqs) :
    reqs.find? (fun q => q.1 = p.1) = some p := by
  induction reqs with
  | nil => cases hp
  | cons q rest ih =>
    rcases List.mem_cons.mp hp with rfl | hmem
    · have : (decide (p.1 = p.1)) = true := by simp
      simp [List.find?_cons, this]
    · have hq : q.1 ∉ reqKeys rest := (List.nodup_cons.mp hnd).1
      have hne : q.1 ≠ p.1 := by
        intro he
        exact hq (by simpa [reqKeys, he] using List.mem_map_of_mem Prod.fst hmem)
      have : (decide (q.1 = p.1)) = false := by simp [hne]
      simp only [List.find?_cons, this]
      exact ih (List.nodup_cons.mp hnd).2 hmem

/-- Keys not in the requirements list are not found. -/
theorem find?_key_none (reqs : Requirements) (u : ResourceType)
    (hu : u ∉ reqKeys reqs) : reqs.find? (fun q => q.1 = u) = none := by
  rw [List.find?_eq_none]
  intro p hp
  simp only [decide_eq_true_eq]
  intro he
  exact hu (by simpa [reqKeys, he] using List.mem_map_of_mem Prod.fst hp)

end LedgerLemmas

/-- C1 counterexample.  The claim quantifies over every requirements map and
every ledger state; for the requirement map assigning required amount 0 to a
type whose current count is 0, every required type's current count is at
least its required amount, yet `consumeResources` returns false (the
truthiness test `!this.resources[type]` rejects a zero count before the
amount comparison). -/
theorem consumeResources_zero_req_counterexample :
    (∀ p ∈ ([(ResourceType.wheat, (0:ℤ))] : Requirements), p.2 ≤ initialLedger p.1) ∧
    (consumeResources initialLedger [(ResourceType.wheat, 0)]).2 = false := by
  constructor
  · intro p hp
    simp only [List.mem_singleton] at hp
    subst hp
    decide
  · decide

/-- C1 (amended): for requirement maps whose amounts are all positive,
`consumeResources` is atomic: if every required type's current count is at
least its required amount it decrements every entry by its amount and returns
true; otherwise it returns false and leaves every count unchanged.  The
plank scenario (10 → consume 5 → 5, then consume 6 fails leaving 5) also
holds. -/
theorem consumeResources_atomic (r : Ledger) (reqs : Requirements)
    (hnd : (reqKeys reqs).Nodup) (hpos : ∀ p ∈ reqs, 0 < p.2) :
    (((∀ p ∈ reqs, p.2 ≤ r p.1) →
        (consumeResources r reqs).2 = true ∧
        (∀ p ∈ reqs, (consumeResources r reqs).1 p.1 = r p.1 - p.2) ∧
        (∀ t, t ∉ reqKeys reqs → (consumeResources r reqs).1 t = r t)) ∧
      ((¬ ∀ p ∈ reqs, p.2 ≤ r p.1) →
        (consumeResources r reqs).2 = false ∧ (consumeResources r reqs).1 = r)) ∧
    ((consumeResources initialLedger [(ResourceType.plank, 5)]).2 = true ∧
      (consumeResources initialLedger [(ResourceType.plank, 5)]).1 .plank = 5 ∧
      (consumeResources (consumeResources initialLedger [(ResourceType.plank, 5)]).1
          [(ResourceType.plank, 6)]).2 = false ∧
      (consumeResources (consumeResources initialLedger [(ResourceType.plank, 5)]).1
          [(ResourceType.plank, 6)]).1 .plank = 5) := by
  refine ⟨⟨?_, ?_⟩, by decide⟩
  · intro hall
    have hhas : hasResources r reqs = true :=
      (hasResources_iff_of_pos r reqs hpos).mpr hall
    refine ⟨by simp [consumeResources, hhas], ?_, ?_⟩
    · intro p hp
      simp only [consumeResources, hhas, if_pos]
      rw [consume_foldl_eval reqs r p.1 hnd, find?_key_self reqs p hnd hp]
    · intro t ht
      simp only [consumeResources, hhas, if_pos]
      rw [consume_foldl_eval reqs r t hnd, find?_key_none reqs t ht]
  · intro hnot
    have hhas : hasResources r reqs = false := by
      by_contra h
      exact hnot ((hasResources_iff_of_pos r reqs hpos).mp
        (eq_true_of_ne_false h))
    simp [consumeResources, hhas]

/-- C1 witness: the amended theorem applied to the initial ledger and the
single-entry requirement map plank ↦ 5. -/
theorem consumeResources_atomic_witness :
    ((reqKeys [(ResourceType.plank, (5:ℤ))]).Nodup ∧
      (∀ p ∈ ([(ResourceType.plank, (5:ℤ))] : Requirements), 0 < p.2)) ∧
    ((((∀ p ∈ ([(ResourceType.plank, (5:ℤ))] : Requirements), p.2 ≤ initialLedger p.1) →
        (consumeResources initialLedger [(ResourceType.plank, 5)]).2 = true ∧
        (∀ p ∈ ([(ResourceType.plank, (5:ℤ))] : Requirements),
          (consumeResources initialLedger [(ResourceType.plank, 5)]).1 p.1 =
            initialLedger p.1 - p.2) ∧
        (∀ t, t ∉ reqKeys [(ResourceType.plank, (5:ℤ))] →
          (consumeResources initialLedger [(ResourceType.plank, 5)]).1 t =
            initialLedger t)) ∧
      ((¬ ∀ p ∈ ([(ResourceType.plank, (5:ℤ))] : Requirements), p.2 ≤ initialLedger p.1) →
        (consumeResources initialLedger [(ResourceType.plank, 5)]).2 = false ∧
        (consumeResources initialLedger [(ResourceType.plank, 5)]).1 = initialLedger)) ∧
    ((consumeResources initialLedger [(ResourceType.plank, 5)]).2 = true ∧
      (consumeResources initialLedger [(ResourceType.plank, 5)]).1 .plank = 5 ∧
      (consumeResources (consumeResources initialLedger [(ResourceType.plank, 5)]).1
          [(ResourceType.plank, 6)]).2 = false ∧
      (consumeResources (consumeResources initialLedger [(ResourceType.plank, 5)]).1
          [(ResourceType.plank, 6)]).1 .plank = 5)) :=
  ⟨⟨by decide, by decide⟩,
    consumeResources_atomic initialLedger [(ResourceType.plank, 5)]
      (by decide) (by decide)⟩

/-!
## C2: ledger invariant over operation sequences
-/

/-- One mutating ledger operation. -/
inductive LedgerOp where
  | add (t : ResourceType) (amount : ℤ)
  | remove (t : ResourceType) (amount : ℤ)
  | consumeAll (reqs : Requirements)

/-- Apply one operation (the failing variants leave the state unchanged,
exactly as `removeResource`/`consumeResources` return early). -/
def applyOp (r : Ledger) : LedgerOp → Ledger
  | .add t a => addResource r t a
  | .remove t a => (removeResource r t a).1
  | .consumeAll reqs => (consumeResources r reqs).1

/-- Run a sequence of operations from a starting ledger. -/
def runOps (r : Ledger) (ops : List LedgerOp) : Ledger := ops.foldl applyOp r

/-- Well-formed call (the claim's hypotheses): non-negative amounts, and a
requirements argument that is a genuine JS object (distinct keys). -/
def opWF : LedgerOp → Prop
  | .add _ a => 0 ≤ a
  | .remove _ a => 0 ≤ a
  | .consumeAll reqs => (∀ p ∈ reqs, 0 ≤ p.2) ∧ (reqKeys reqs).Nodup

/-- One well-formed operation preserves non-negativity of every count. -/
theorem applyOp_nonneg (r : Ledger) (op : LedgerOp)
    (hr : ∀ t, 0 ≤ r t) (hwf : opWF op) : ∀ t, 0 ≤ applyOp r op t := by
  intro t
  cases op with
  | add u a =>
    have ha : (0:ℤ) ≤ a := hwf
    simp only [applyOp, addResource]
    split
    · have := hr u; omega
    · exact hr t
  | remove u a =>
    simp only [applyOp, removeResource]
    split
    · exact hr t
    · rename_i hcond
      push_neg at hcond
      show 0 ≤ if t = u then r u - a else r t
      split
      · omega
      · exact hr t
  | consumeAll reqs =>
    by_cases hhas : hasResources r reqs = true
    · have he : applyOp r (LedgerOp.consumeAll reqs) =
          reqs.foldl (fun acc p => fun v => if v = p.1 then acc v - p.2 else acc v) r := by
        simp [applyOp, consumeResources, hhas]
      rw [he, consume_foldl_eval reqs r t hwf.2]
      cases hfind : reqs.find? (fun q => q.1 = t) with
      | none =>
        exact hr t
      | some p =>
        have hmem := List.mem_of_find?_eq_some hfind
        have hkey : p.1 = t := by
          have := List.find?_some hfind
          simpa using this
        have hle := hasResources_true_le r reqs hhas p hmem
        show 0 ≤ r t - p.2
        rw [← hkey]
        omega
    · simpa [applyOp, consumeResources, hhas] using hr t

/-- A whole sequence of well-formed operations preserves non-negativity. -/
theorem runOps_nonneg (ops : List LedgerOp) :
    ∀ (r : Ledger), (∀ t, 0 ≤ r t) → (∀ op ∈ ops, opWF op) →
      ∀ t, 0 ≤ runOps r ops t := by
  induction ops with
  | nil => intro r hr _ t; exact hr t
  | cons op rest ih =>
    intro r hr hwfs t
    exact ih (applyOp r op)
      (applyOp_nonneg r op hr (hwfs op (List.mem_cons_self _ _)))
      (fun o ho => hwfs o (List.mem_cons_of_mem _ ho)) t

/-- C2: starting from the initial ledger, every sequence of well-formed
`add`/`remove`/`consumeAll` calls keeps every count non-negative, and
`remove(type, n)` with `n > get(type)` returns false and leaves every count
unchanged. -/
theorem ledger_invariant (ops : List LedgerOp) (hwf : ∀ op ∈ ops, opWF op) :
    (∀ t, 0 ≤ runOps initialLedger ops t) ∧
    (∀ t n, getResource (runOps initialLedger ops) t < n →
      (removeResource (runOps initialLedger ops) t n).2 = false ∧
      (removeResource (runOps initialLedger ops) t n).1 =
        runOps initialLedger ops) := by
  constructor
  · have base : ∀ t, 0 ≤ initialLedger t := by
      intro t; cases t <;> norm_num [initialLedger]
    exact runOps_nonneg ops initialLedger base hwf
  · intro t n hn
    unfold getResource at hn
    have hcond : runOps initialLedger ops t = 0 ∨ runOps initialLedger ops t < n := by
      omega
    simp [removeResource, hcond]

/-- C2 witness: a concrete sequence (add 3 plank, remove 2 plank, consume
5 wood) applied to the invariant theorem. -/
theorem ledger_invariant_witness :
    (∀ op ∈ [LedgerOp.add .plank 3, LedgerOp.remove .plank 2,
              LedgerOp.consumeAll [(.wood, 5)]], opWF op) ∧
    ((∀ t, 0 ≤ runOps initialLedger
        [LedgerOp.add .plank 3, LedgerOp.remove .plank 2,
         LedgerOp.consumeAll [(.wood, 5)]] t) ∧
    (∀ t n, getResource (runOps initialLedger
        [LedgerOp.add .plank 3, LedgerOp.remove .plank 2,
         LedgerOp.consumeAll [(.wood, 5)]]) t < n →
      (removeResource (runOps initialLedger
        [LedgerOp.add .plank 3, LedgerOp.remove .plank 2,
         LedgerOp.consumeAll [(.wood, 5)]]) t n).2 = false ∧
      (removeResource (runOps initialLedger
        [LedgerOp.add .plank 3, LedgerOp.remove .plank 2,
         LedgerOp.consumeAll [(.wood, 5)]]) t n).1 =
        runOps initialLedger
          [LedgerOp.add .plank 3, LedgerOp.remove .plank 2,
           LedgerOp.consumeAll [(.wood, 5)]])) := by
  have hwf : ∀ op ∈ [LedgerOp.add .plank 3, LedgerOp.remove .plank 2,
      LedgerOp.consumeAll [(.wood, 5)]], opWF op := by
    intro op hop
    simp only [List.mem_cons, List.not_mem_nil, or_false] at hop
    rcases hop with rfl | rfl | rfl
    · norm_num [opWF]
    · norm_num [opWF]
    · refine ⟨?_, by simp [reqKeys]⟩
      intro p hp
      simp only [List.mem_singleton] at hp
      subst hp
      norm_num
  exact ⟨hwf, ledger_invariant _ hwf⟩

/-!
## Static tables (`Constants.js`)
-/

/-- `buildingCosts` from `Constants.js`. -/
def buildingCosts : BuildingType → Requirements
  | .warehouse => [(.plank, 20), (.stone, 10)]
  | .woodcutter => [(.plank, 5)]
  | .sawmill => [(.plank, 5), (.stone, 5)]
  | .stonemason => [(.plank, 5)]
  | .mine => [(.plank, 5), (.stone, 10)]
  | .ironsmith => [(.plank, 5), (.stone, 10)]
  | .farm => [(.plank, 5)]
  | .mill => [(.plank, 5), (.stone, 5)]
  | .bakery => [(.plank, 5), (.stone, 10)]
  | .hunter => [(.plank, 5)]

/-!
## C3: construction allocation (`Construction.js`, `Porter.js`)

`Construction.allocatedResources` is a JS object initialised to 0 for every
required key; the porter's delivery writes
`allocated[carried] = (allocated[carried] || 0) + carriedAmount` with a carried
amount of 1 set at fetch time, so it is modelled as a total function with
default 0 and an unconditional increment-by-1 per delivery.
-/

/-- The construction allocation state a porter delivery mutates. -/
structure ConstructionAlloc where
  required : Requirements
  allocated : ResourceType → ℤ

/-- Allocation state of a freshly created construction: required resources
copied from `buildingCosts[target]`, every allocation 0. -/
def initConstructionAlloc (target : BuildingType) : ConstructionAlloc :=
  { required := buildingCosts target, allocated := fun _ => 0 }

/-- One porter delivery (`Porter._deliverResourceToConstruction`, the
allocation write): increments the carried type by the carried amount (1). -/
def deliverResource (c : ConstructionAlloc) (res : ResourceType) : ConstructionAlloc :=
  { c with allocated := fun t => if t = res then c.allocated res + 1 else c.allocated t }

/-- A sequence of porter deliveries. -/
def runDeliveries (c : ConstructionAlloc) (rs : List ResourceType) : ConstructionAlloc :=
  rs.foldl deliverResource c

/-- `Construction._hasAllResources()`: every required entry's allocation has
reached its amount. -/
def hasAllResources (c : ConstructionAlloc) : Bool :=
  c.required.all fun p => decide (p.2 ≤ c.allocated p.1)

/-- Required amount of one type (first entry with that key, else 0). -/
def requiredAmount (c : ConstructionAlloc) (t : ResourceType) : ℤ :=
  match c.required.find? (fun p => p.1 = t) with
  | some p => p.2
  | none => 0

/-- A delivery sequence is guarded when each delivery happens while its type
is still under-allocated in the state it is delivered to. -/
def GuardedDeliveries (c : ConstructionAlloc) : List ResourceType → Prop
  | [] => True
  | t :: rest =>
    c.allocated t < requiredAmount c t ∧ GuardedDeliveries (deliverResource c t) rest

/-- C3 counterexample.  A woodcutter construction requires 5 planks; six
porter deliveries of a plank each drive the allocation to 6 > 5, because the
delivery write does not clamp at the requirement. -/
theorem allocation_bound_counterexample :
    ((ResourceType.plank, (5:ℤ)) ∈ (initConstructionAlloc .woodcutter).required) ∧
    (runDeliveries (initConstructionAlloc .woodcutter)
        (List.replicate 6 .plank)).allocated .plank = 6 ∧
    ¬ (runDeliveries (initConstructionAlloc .woodcutter)
        (List.replicate 6 .plank)).allocated .plank ≤ 5 := by
  refine ⟨by decide, by decide, by decide⟩

/-- A delivery never changes the required manifest. -/
theorem deliverResource_required (c : ConstructionAlloc) (t : ResourceType) :
    (deliverResource c t).required = c.required := rfl

/-- A delivery never decreases any allocation. -/
theorem deliverResource_mono (c : ConstructionAlloc) (t u : ResourceType) :
    c.allocated u ≤ (deliverResource c t).allocated u := by
  simp only [deliverResource]
  split
  · rename_i h; rw [h]; omega
  · exact le_refl _

/-- Allocations are monotone over any delivery sequence. -/
theorem runDeliveries_mono (rs : List ResourceType) :
    ∀ (c : ConstructionAlloc) (u : ResourceType),
      c.allocated u ≤ (runDeliveries c rs).allocated u := by
  induction rs with
  | nil => intro c u; exact le_refl _
  | cons t rest ih =>
    intro c u
    exact le_trans (deliverResource_mono c t u) (ih (deliverResource c t) u)

/-- A guarded delivery sequence keeps every allocation within its
requirement. -/
theorem guarded_bound (rs : List ResourceType) :
    ∀ (c : ConstructionAlloc), (reqKeys c.required).Nodup →
      GuardedDeliveries c rs → (∀ p ∈ c.required, c.allocated p.1 ≤ p.2) →
      ∀ p ∈ c.required, (runDeliveries c rs).allocated p.1 ≤ p.2 := by
  induction rs with
  | nil => intro c _ _ hb p hp; exact hb p hp
  | cons t rest ih =>
    intro c hnd hg hb p hp
    refine ih (deliverResource c t) (by rw [deliverResource_required]; exact hnd)
      hg.2 ?_ p (by rw [deliverResource_required]; exact hp)
    intro q hq
    rw [deliverResource_required] at hq
    simp only [deliverResource]
    split
    · rename_i he
      have hfind := find?_key_self c.required q hnd hq
      have hreq : requiredAmount c q.1 = q.2 := by
        simp [requiredAmount, hfind]
      rw [he] at hreq
      have h1 := hg.1
      rw [hreq] at h1
      omega
    · exact hb q hq

/-- C3 (amended): allocations are monotonically non-decreasing under porter
deliveries; and `allocated[r] <= required[r]` holds for every delivery
sequence in which each unit is delivered while its type is still
under-allocated.  (The unguarded delivery write does not clamp, so
concurrent porters that fetched the same type can exceed the requirement;
see the counterexample.) -/
theorem allocation_invariant (c : ConstructionAlloc) (rs : List ResourceType)
    (hnd : (reqKeys c.required).Nodup)
    (hstart : ∀ p ∈ c.required, c.allocated p.1 ≤ p.2) :
    (∀ u, c.allocated u ≤ (runDeliveries c rs).allocated u) ∧
    (GuardedDeliveries c rs →
      ∀ p ∈ c.required, (runDeliveries c rs).allocated p.1 ≤ p.2) := by
  refine ⟨fun u => runDeliveries_mono rs c u, fun hg => ?_⟩
  exact guarded_bound rs c hnd hg hstart

/-- C3 witness: one guarded plank delivery to a fresh woodcutter
construction. -/
theorem allocation_invariant_witness :
    ((reqKeys (initConstructionAlloc .woodcutter).required).Nodup ∧
      (∀ p ∈ (initConstructionAlloc .woodcutter).required,
        (initConstructionAlloc .woodcutter).allocated p.1 ≤ p.2) ∧
      GuardedDeliveries (initConstructionAlloc .woodcutter) [.plank]) ∧
    ((∀ u, (initConstructionAlloc .woodcutter).allocated u ≤
        (runDeliveries (initConstructionAlloc .woodcutter) [.plank]).allocated u) ∧
      (GuardedDeliveries (initConstructionAlloc .woodcutter) [.plank] →
        ∀ p ∈ (initConstructionAlloc .woodcutter).required,
          (runDeliveries (initConstructionAlloc .woodcutter) [.plank]).allocated p.1 ≤ p.2)) :=
  ⟨⟨by decide, by decide, by constructor <;> first | decide | trivial⟩,
    allocation_invariant (initConstructionAlloc .woodcutter) [.plank]
      (by decide) (by decide)⟩

/-!
## C4: interaction points (`Building.js`, `Warehouse` in `Porter.js` bundle,
`Construction.js`)
-/

/-- `Building._defineInteractionPoint()`: bottom-center by default
(`x + Math.floor(width/2)`, `y + height - 1`), overridden to the bottom-right
corner when `this.type === 'warehouse'`.  Computed from the `size` the object
has at call time. -/
def defineInteractionPoint (btype : BuildingType) (pos : ℤ × ℤ) (size : ℤ × ℤ) : ℤ × ℤ :=
  if btype = .warehouse then (pos.1 + size.1 - 1, pos.2 + size.2 - 1)
  else (pos.1 + size.1 / 2, pos.2 + size.2 - 1)

/-- A completed building as the simulation sees it. -/
structure BuildingRecord where
  btype : BuildingType
  position : ℤ × ℤ
  size : ℤ × ℤ
  interactionPoint : ℤ × ℤ
deriving DecidableEq, Repr

/-- The `Building` base constructor: `size = {1,1}`, then
`_defineInteractionPoint()`. -/
def mkBuildingBase (btype : BuildingType) (pos : ℤ × ℤ) : BuildingRecord :=
  { btype := btype, position := pos, size := (1, 1),
    interactionPoint := defineInteractionPoint btype pos (1, 1) }

/-- The `Warehouse` constructor: `super(world, x, y, WAREHOUSE)` and only then
`this.size = { width: 2, height: 2 }` — the interaction point is not
recomputed after the size change. -/
def mkWarehouse (pos : ℤ × ℤ) : BuildingRecord :=
  { mkBuildingBase .warehouse pos with size := (2, 2) }

/-- The `Woodcutter` constructor: `super(world, x, y, WOODCUTTER)` then
`this.size = { width: 1, height: 1 }` (unchanged). -/
def mkWoodcutter (pos : ℤ × ℤ) : BuildingRecord :=
  { mkBuildingBase .woodcutter pos with size := (1, 1) }

/-- Footprint size a construction site adopts for its target type. -/
def constructionSize (target : BuildingType) : ℤ × ℤ :=
  if target = .warehouse then (2, 2) else (1, 1)

/-- A construction site entity. -/
structure ConstructionRecord where
  id : ℕ
  position : ℤ × ℤ
  size : ℤ × ℤ
  interactionPoint : ℤ × ℤ
  targetBuildingType : BuildingType
  progress : ℚ
  alloc : ConstructionAlloc

/-- The `Construction` constructor: `super(world, x, y, WAREHOUSE)` (so
`this.type` stays `'warehouse'`), then the real footprint size, then
`_defineInteractionPoint()` again — which therefore always takes the
warehouse (bottom-right) branch, over the actual footprint. -/
def mkConstruction (cid : ℕ) (pos : ℤ × ℤ) (target : BuildingType) : ConstructionRecord :=
  { id := cid, position := pos, size := constructionSize target,
    interactionPoint := defineInteractionPoint .warehouse pos (constructionSize target),
    targetBuildingType := target, progress := 0,
    alloc := initConstructionAlloc target }

/-- C4 counterexample.  The warehouse building's interaction point is
computed before its 2×2 size is assigned, so it is the top-left footprint
tile, not the claimed bottom-right corner `position + (width-1, height-1)`. -/
theorem interactionPoint_warehouse_counterexample :
    (mkWarehouse (5, 7)).size = (2, 2) ∧
    (mkWarehouse (5, 7)).interactionPoint = (5, 7) ∧
    (mkWarehouse (5, 7)).interactionPoint ≠
      ((mkWarehouse (5, 7)).position.1 + (mkWarehouse (5, 7)).size.1 - 1,
       (mkWarehouse (5, 7)).position.2 + (mkWarehouse (5, 7)).size.2 - 1) := by
  refine ⟨by decide, by decide, by decide⟩

/-- C4 (amended): every construction's interaction point is the bottom-right
corner of its actual footprint (which coincides with the bottom-center tile
for the 1×1 non-warehouse footprints); the woodcutter building's interaction
point is the bottom-center of its 1×1 footprint; but the warehouse building's
interaction point equals its top-left position, because `Warehouse` assigns
the 2×2 size only after the base constructor computed the point from the
default 1×1 footprint. -/
theorem interactionPoint_rules (cid : ℕ) (pos : ℤ × ℤ) (target : BuildingType) :
    ((mkConstruction cid pos target).interactionPoint =
      (pos.1 + (mkConstruction cid pos target).size.1 - 1,
       pos.2 + (mkConstruction cid pos target).size.2 - 1)) ∧
    (target ≠ .warehouse →
      (mkConstruction cid pos target).interactionPoint =
      (pos.1 + (mkConstruction cid pos target).size.1 / 2,
       pos.2 + (mkConstruction cid pos target).size.2 - 1)) ∧
    ((mkWoodcutter pos).interactionPoint =
      (pos.1 + (mkWoodcutter pos).size.1 / 2,
       pos.2 + (mkWoodcutter pos).size.2 - 1)) ∧
    ((mkWarehouse pos).interactionPoint = pos ∧ (mkWarehouse pos).size = (2, 2)) := by
  refine ⟨rfl, ?_, rfl, ?_, rfl⟩
  · intro h
    simp only [mkConstruction, constructionSize, if_neg h, defineInteractionPoint,
      if_pos rfl]
    have h1 : pos.1 + (1:ℤ) - 1 = pos.1 + (1:ℤ) / 2 := by norm_num
    rw [h1]
    simp
  · show ((pos.1 + 1 - 1, pos.2 + 1 - 1) : ℤ × ℤ) = pos
    have h1 : pos.1 + (1:ℤ) - 1 = pos.1 := by ring
    have h2 : pos.2 + (1:ℤ) - 1 = pos.2 := by ring
    rw [h1, h2]

/-- C4 witness: the rules applied at a concrete position and a non-warehouse
target, with the non-warehouse hypothesis discharged. -/
theorem interactionPoint_rules_witness :
    (BuildingType.farm ≠ BuildingType.warehouse) ∧
    ((mkConstruction 0 (3, 4) .farm).interactionPoint =
      ((3:ℤ) + (mkConstruction 0 (3, 4) .farm).size.1 - 1,
       (4:ℤ) + (mkConstruction 0 (3, 4) .farm).size.2 - 1)) ∧
    ((mkConstruction 0 (3, 4) .farm).interactionPoint =
      ((3:ℤ) + (mkConstruction 0 (3, 4) .farm).size.1 / 2,
       (4:ℤ) + (mkConstruction 0 (3, 4) .farm).size.2 - 1)) ∧
    ((mkWoodcutter ((3:ℤ), (4:ℤ))).interactionPoint =
      ((3:ℤ) + (mkWoodcutter ((3:ℤ), (4:ℤ))).size.1 / 2,
       (4:ℤ) + (mkWoodcutter ((3:ℤ), (4:ℤ))).size.2 - 1)) ∧
    ((mkWarehouse ((3:ℤ), (4:ℤ))).interactionPoint = ((3:ℤ), (4:ℤ)) ∧
      (mkWarehouse ((3:ℤ), (4:ℤ))).size = (2, 2)) :=
  ⟨by decide,
    (interactionPoint_rules 0 (3, 4) .farm).1,
    (interactionPoint_rules 0 (3, 4) .farm).2.1 (by decide),
    (interactionPoint_rules 0 (3, 4) .farm).2.2.1,
    (interactionPoint_rules 0 (3, 4) .farm).2.2.2⟩

/-!
## C5: construction completion (`Builder._performBuilding`,
`Construction.update`, `World.completeConstruction`)

Construction identity (`c !== construction`, `includes`) is JS object
identity, modelled by a unique numeric `id` per construction.  A
construction's `type` field is `'warehouse'` (the `Construction` constructor
passes `BuildingType.WAREHOUSE` to `super`), which is what the terrain
occupant reference exposes to the pathfinder.
-/

/-- What a terrain tile's `building` back-reference exposes: the occupant's
`type`, `position` and `size` fields read by the pathfinder. -/
structure OccRef where
  btype : BuildingType
  position : ℤ × ℤ
  size : ℤ × ℤ
deriving DecidableEq, Repr

/-- World state: terrain maps, plus the authoritative entity lists. -/
structure WorldState where
  width : ℤ
  height : ℤ
  tileSize : ℚ
  terrainAt : ℤ → ℤ → TerrainType
  occupantAt : ℤ → ℤ → Option OccRef
  buildableAt : ℤ → ℤ → Bool
  buildings : List BuildingRecord
  constructions : List ConstructionRecord

/-- Mark a footprint's in-bounds tiles as occupied by `r` and not buildable
(the double loop shared by `addBuilding` and `addConstruction`). -/
def markFootprint (w : WorldState) (r : OccRef) : WorldState :=
  { w with
    occupantAt := fun x y =>
      if r.position.1 ≤ x ∧ x < r.position.1 + r.size.1 ∧
         r.position.2 ≤ y ∧ y < r.position.2 + r.size.2 ∧
         0 ≤ x ∧ x < w.width ∧ 0 ≤ y ∧ y < w.height then some r
      else w.occupantAt x y,
    buildableAt := fun x y =>
      if r.position.1 ≤ x ∧ x < r.position.1 + r.size.1 ∧
         r.position.2 ≤ y ∧ y < r.position.2 + r.size.2 ∧
         0 ≤ x ∧ x < w.width ∧ 0 ≤ y ∧ y < w.height then false
      else w.buildableAt x y }

/-- `World.addBuilding`: push onto the buildings list, mark the footprint. -/
def addBuilding (w : WorldState) (b : BuildingRecord) : WorldState :=
  markFootprint { w with buildings := w.buildings ++ [b] }
    { btype := b.btype, position := b.position, size := b.size }

/-- `World.addConstruction`: push onto the constructions list, mark the
footprint (a construction's `type` is `'warehouse'`). -/
def addConstruction (w : WorldState) (c : ConstructionRecord) : WorldState :=
  markFootprint { w with constructions := w.constructions ++ [c] }
    { btype := .warehouse, position := c.position, size := c.size }

/-- `World.completeConstruction`: remove the construction from the list, then
instantiate the concrete building — but only the WAREHOUSE and WOODCUTTER
cases are implemented; the switch's default logs an unknown-type error and
returns with the construction already removed. -/
def completeConstruction (w : WorldState) (c : ConstructionRecord) : WorldState :=
  let w1 := { w with constructions := w.constructions.filter (fun c2 => c2.id ≠ c.id) }
  match c.targetBuildingType with
  | .warehouse => addBuilding w1 (mkWarehouse c.position)
  | .woodcutter => addBuilding w1 (mkWoodcutter c.position)
  | _ => w1

/-- `Construction.update()`: calls `World.completeConstruction` exactly when
`progress >= 100` (the progress-bar refresh has no simulation effect). -/
def constructionUpdate (w : WorldState) (c : ConstructionRecord) : WorldState :=
  if 100 ≤ c.progress then completeConstruction w c else w

/-- Builder finite-state-machine states. -/
inductive BuilderFSM where
  | idle | movingToConstruction | building
deriving DecidableEq, Repr

/-- Builder state relevant to `_performBuilding`. -/
structure BuilderState where
  state : BuilderFSM
  targetConstruction : Option ℕ
  currentBuildingTime : ℚ
  isBuilding : Bool

/-- `this.buildingTime = 5000` (ms). -/
def buildingDuration : ℚ := 5000

/-- `16.67` ms added per tick (`currentBuildingTime += 16.67`). -/
def frameTime : ℚ := 1667 / 100

/-- `Builder._performBuilding()`, the BUILDING-state handler: abandon a
vanished target; otherwise accumulate one frame of build time and, once the
fixed 5000 ms duration is reached, set the target's `progress` to 100 and
detach. -/
def performBuilding (b : BuilderState) (cs : List ConstructionRecord) :
    BuilderState × List ConstructionRecord :=
  match b.targetConstruction with
  | none =>
    ({ b with isBuilding := false, targetConstruction := none, state := .idle }, cs)
  | some cid =>
    if cs.any fun c => c.id = cid then
      let t := b.currentBuildingTime + frameTime
      if buildingDuration ≤ t then
        ({ b with
            currentBuildingTime := t
            isBuilding := false
            targetConstruction := none
            state := .idle },
         cs.map fun c => if c.id = cid then { c with progress := 100 } else c)
      else ({ b with currentBuildingTime := t }, cs)
    else
      ({ b with isBuilding := false, targetConstruction := none, state := .idle }, cs)

/-- A concrete world holding one fully-resourced sawmill construction site. -/
def demoSawmillSite : ConstructionRecord :=
  { mkConstruction 0 (1, 1) .sawmill with progress := 100 }

/-- A small all-grass world containing only `demoSawmillSite`. -/
def demoWorld : WorldState :=
  { width := 10, height := 10, tileSize := 2,
    terrainAt := fun _ _ => .grass, occupantAt := fun _ _ => none,
    buildableAt := fun _ _ => true,
    buildings := [], constructions := [demoSawmillSite] }

/-- C5 counterexample.  A sawmill construction with progress 100 is removed
from the constructions list but no building is created: the
`completeConstruction` switch implements only the WAREHOUSE and WOODCUTTER
cases. -/
theorem completeConstruction_unknown_type_counterexample :
    100 ≤ demoSawmillSite.progress ∧
    (constructionUpdate demoWorld demoSawmillSite).constructions.length = 0 ∧
    (constructionUpdate demoWorld demoSawmillSite).buildings = [] := by
  refine ⟨by norm_num [demoSawmillSite, mkConstruction], ?_, ?_⟩ <;>
    simp [constructionUpdate, completeConstruction, demoWorld, demoSawmillSite,
      mkConstruction]

/-- C5 (amended): a construction's progress is written only by the builder's
BUILDING-state step: with a live target it accumulates 16.67 ms per tick and
sets progress to exactly 100 once the fixed 5000 ms duration is reached
(otherwise it never touches any construction); and whenever progress ≥ 100
the construction is removed from the world's constructions list and, for
WAREHOUSE and WOODCUTTER targets, replaced by a Building of the matching
type at the same grid position — for every other target type it is removed
without a replacement building. -/
theorem construction_completion (b : BuilderState) (cs : List ConstructionRecord)
    (w : WorldState) (c : ConstructionRecord) :
    ((∀ c2 ∈ (performBuilding b cs).2, 100 ≤ c2.progress →
        (∃ c0 ∈ cs, c0.id = c2.id ∧ 100 ≤ c0.progress) ∨
        (b.targetConstruction = some c2.id ∧
          (cs.any fun c0 => c0.id = c2.id) = true ∧
          buildingDuration ≤ b.currentBuildingTime + frameTime)) ∧
      (∀ cid, b.targetConstruction = some cid →
        (cs.any fun c0 => c0.id = cid) = true →
        buildingDuration ≤ b.currentBuildingTime + frameTime →
        (performBuilding b cs).2 =
          (cs.map fun c0 => if c0.id = cid then { c0 with progress := 100 } else c0) ∧
        (performBuilding b cs).1.state = .idle ∧
        (performBuilding b cs).1.targetConstruction = none ∧
        (performBuilding b cs).1.currentBuildingTime =
          b.currentBuildingTime + frameTime) ∧
      (∀ cid, b.targetConstruction = some cid →
        (cs.any fun c0 => c0.id = cid) = true →
        b.currentBuildingTime + frameTime < buildingDuration →
        (performBuilding b cs).2 = cs ∧
        (performBuilding b cs).1.state = b.state ∧
        (performBuilding b cs).1.currentBuildingTime =
          b.currentBuildingTime + frameTime)) ∧
    ((100 ≤ c.progress →
        (constructionUpdate w c).constructions =
          w.constructions.filter (fun c2 => c2.id ≠ c.id) ∧
        (c.targetBuildingType = .warehouse →
          (constructionUpdate w c).buildings = w.buildings ++ [mkWarehouse c.position]) ∧
        (c.targetBuildingType = .woodcutter →
          (constructionUpdate w c).buildings = w.buildings ++ [mkWoodcutter c.position])) ∧
      (c.progress < 100 → constructionUpdate w c = w)) := by
  constructor
  · refine ⟨?_, ?_, ?_⟩
    · intro c2 hc2 hprog
      match hb : b.targetConstruction with
      | none =>
        left
        refine ⟨c2, ?_, rfl, hprog⟩
        simpa [performBuilding, hb] using hc2
      | some cid =>
        by_cases hlive : (cs.any fun c0 => c0.id = cid) = true
        · by_cases hdone : buildingDuration ≤ b.currentBuildingTime + frameTime
          · simp only [performBuilding, hb, hlive, if_true, if_pos hdone,
              List.mem_map] at hc2
            obtain ⟨c0, hc0, hc0e⟩ := hc2
            by_cases hid : c0.id = cid
            · right
              subst hc0e
              simp only [hid, if_pos]
              refine ⟨?_, ?_, hdone⟩
              · simp [hid]
              · simpa [hid] using hlive
            · left
              rw [if_neg hid] at hc0e
              subst hc0e
              exact ⟨c0, hc0, rfl, hprog⟩
          · left
            simp only [performBuilding, hb, hlive, if_true, if_neg hdone] at hc2
            exact ⟨c2, hc2, rfl, hprog⟩
        · left
          simp only [performBuilding, hb, hlive] at hc2
          simp only [Bool.false_eq_true, if_false] at hc2
          exact ⟨c2, hc2, rfl, hprog⟩
    · intro cid hb hlive hdone
      simp [performBuilding, hb, hlive, hdone]
    · intro cid hb hlive hdone
      have : ¬ buildingDuration ≤ b.currentBuildingTime + frameTime := by
        exact not_le.mpr hdone
      simp [performBuilding, hb, hlive, this]
  · constructor
    · intro hprog
      have hupd : constructionUpdate w c = completeConstruction w c := by
        simp [constructionUpdate, hprog]
      rw [hupd]
      refine ⟨?_, ?_, ?_⟩
      · unfold completeConstruction
        match htgt : c.targetBuildingType with
        | .warehouse => simp [addBuilding, markFootprint]
        | .woodcutter => simp [addBuilding, markFootprint]
        | .sawmill => rfl
        | .stonemason => rfl
        | .mine => rfl
        | .ironsmith => rfl
        | .farm => rfl
        | .mill => rfl
        | .bakery => rfl
        | .hunter => rfl
      · intro htgt
        simp [completeConstruction, htgt, addBuilding, markFootprint]
      · intro htgt
        simp [completeConstruction, htgt, addBuilding, markFootprint]
    · intro hprog
      simp [constructionUpdate, not_le.mpr hprog]

/-- A builder mid-session on construction 7, one frame short of 5000 ms. -/
def demoBuilder : BuilderState :=
  { state := .building
    targetConstruction := some 7
    currentBuildingTime := 4990
    isBuilding := true }

/-- A fully-resourced woodcutter site with id 7 and no progress yet. -/
def demoWoodSite : ConstructionRecord :=
  { mkConstruction 7 (2, 2) .woodcutter with progress := 0 }

/-- The same woodcutter site once its progress has been set to 100. -/
def demoWoodSiteDone : ConstructionRecord :=
  { mkConstruction 7 (2, 2) .woodcutter with progress := 100 }

/-- C5 witness: one builder tick that crosses the 5000 ms duration on a live
woodcutter site, and the completion step of the finished site. -/
theorem construction_completion_witness :
    (demoBuilder.targetConstruction = some 7 ∧
      ([demoWoodSite].any fun c0 => c0.id = 7) = true ∧
      buildingDuration ≤ demoBuilder.currentBuildingTime + frameTime ∧
      (100 : ℚ) ≤ demoWoodSiteDone.progress) ∧
    ((performBuilding demoBuilder [demoWoodSite]).2 =
        ([demoWoodSite].map fun c0 =>
          if c0.id = 7 then { c0 with progress := 100 } else c0) ∧
      (constructionUpdate demoWorld demoWoodSiteDone).buildings =
        demoWorld.buildings ++ [mkWoodcutter (2, 2)]) := by
  have h1 : demoBuilder.targetConstruction = some 7 := rfl
  have h2 : ([demoWoodSite].any fun c0 => c0.id = 7) = true := by
    norm_num [demoWoodSite, mkConstruction]
  have h3 : buildingDuration ≤ demoBuilder.currentBuildingTime + frameTime := by
    norm_num [buildingDuration, frameTime, demoBuilder]
  have h4 : (100 : ℚ) ≤ demoWoodSiteDone.progress := by
    norm_num [demoWoodSiteDone, mkConstruction]
  refine ⟨⟨h1, h2, h3, h4⟩, ?_, ?_⟩
  · exact ((construction_completion demoBuilder [demoWoodSite]
      demoWorld demoWoodSiteDone).1.2.1 7 h1 h2 h3).1
  · exact (((construction_completion demoBuilder [demoWoodSite]
      demoWorld demoWoodSiteDone).2.1 h4).2.2) rfl

/-!
## C8: building placement (`World._isPlacementValid`, `World._placeBuilding`,
`World._onClick`)

`_onClick` invokes `_placeBuilding` exactly when `placementValid` (computed by
`_isPlacementValid` on the same state) is true, and `_placeBuilding` returns
early otherwise; the pair is modelled as one command.
-/

/-- `World._isPlacementValid(x, y)`: the footprint (2×2 for warehouse, 1×1
otherwise) must be fully in bounds, every tile grass and unoccupied, and the
ledger must satisfy `buildingCosts[type]`. -/
def isPlacementValid (w : WorldState) (r : Ledger) (btype : BuildingType)
    (x y : ℤ) : Bool :=
  let size := constructionSize btype
  if x < 0 ∨ y < 0 ∨ x + size.1 > w.width ∨ y + size.2 > w.height then false
  else if ¬ (∀ gy ∈ Finset.Ico y (y + size.2), ∀ gx ∈ Finset.Ico x (x + size.1),
      w.terrainAt gx gy = .grass ∧ w.occupantAt gx gy = none) then false
  else if ¬ (hasResources r (buildingCosts btype) = true) then false
  else true

/-- The placement command: on a valid placement consume the cost and create
the construction site (`_placeBuilding`); otherwise reject with no
mutation. -/
def placeBuilding (w : WorldState) (r : Ledger) (btype : BuildingType)
    (x y : ℤ) (cid : ℕ) : WorldState × Ledger × Bool :=
  if isPlacementValid w r btype x y then
    ((addConstruction w (mkConstruction cid (x, y) btype)),
      (consumeResources r (buildingCosts btype)).1, true)
  else (w, r, false)

/-- Every building cost table entry is positive and has distinct keys. -/
theorem buildingCosts_wf (b : BuildingType) :
    (∀ p ∈ buildingCosts b, 0 < p.2) ∧ (reqKeys (buildingCosts b)).Nodup := by
  cases b <;> exact ⟨by decide, by decide⟩

/-- C8: placement succeeds exactly when the footprint is in-bounds, all grass
and unoccupied, and the ledger covers the full cost; success consumes exactly
the cost and appends the new construction; any failed validation rejects with
no mutation of the world or the ledger. -/
theorem placement_validation (w : WorldState) (r : Ledger) (btype : BuildingType)
    (x y : ℤ) (cid : ℕ) :
    (isPlacementValid w r btype x y = true ↔
      ((0 ≤ x ∧ 0 ≤ y ∧ x + (constructionSize btype).1 ≤ w.width ∧
        y + (constructionSize btype).2 ≤ w.height) ∧
      (∀ gy ∈ Finset.Ico y (y + (constructionSize btype).2),
        ∀ gx ∈ Finset.Ico x (x + (constructionSize btype).1),
          w.terrainAt gx gy = .grass ∧ w.occupantAt gx gy = none) ∧
      (∀ p ∈ buildingCosts btype, p.2 ≤ r p.1))) ∧
    (isPlacementValid w r btype x y = true →
      (placeBuilding w r btype x y cid).2.2 = true ∧
      (placeBuilding w r btype x y cid).1.constructions =
        w.constructions ++ [mkConstruction cid (x, y) btype] ∧
      (∀ p ∈ buildingCosts btype,
        (placeBuilding w r btype x y cid).2.1 p.1 = r p.1 - p.2) ∧
      (∀ t, t ∉ reqKeys (buildingCosts btype) →
        (placeBuilding w r btype x y cid).2.1 t = r t)) ∧
    (isPlacementValid w r btype x y = false →
      placeBuilding w r btype x y cid = (w, r, false)) := by
  have hpos := (buildingCosts_wf btype).1
  have hnd := (buildingCosts_wf btype).2
  have hiff : isPlacementValid w r btype x y = true ↔
      ((0 ≤ x ∧ 0 ≤ y ∧ x + (constructionSize btype).1 ≤ w.width ∧
        y + (constructionSize btype).2 ≤ w.height) ∧
      (∀ gy ∈ Finset.Ico y (y + (constructionSize btype).2),
        ∀ gx ∈ Finset.Ico x (x + (constructionSize btype).1),
          w.terrainAt gx gy = .grass ∧ w.occupantAt gx gy = none) ∧
      (∀ p ∈ buildingCosts btype, p.2 ≤ r p.1)) := by
    unfold isPlacementValid
    by_cases h1 : x < 0 ∨ y < 0 ∨ x + (constructionSize btype).1 > w.width ∨
        y + (constructionSize btype).2 > w.height
    · rw [if_pos h1]
      constructor
      · intro hf; simp at hf
      · intro hc
        obtain ⟨⟨hx, hy, hw, hh⟩, -, -⟩ := hc
        exfalso; omega
    · rw [if_neg h1]
      by_cases h2 : ∀ gy ∈ Finset.Ico y (y + (constructionSize btype).2),
          ∀ gx ∈ Finset.Ico x (x + (constructionSize btype).1),
            w.terrainAt gx gy = .grass ∧ w.occupantAt gx gy = none
      · rw [if_neg (not_not_intro h2)]
        by_cases h3 : hasResources r (buildingCosts btype) = true
        · rw [if_neg (not_not_intro h3)]
          constructor
          · intro _
            refine ⟨?_, h2, (hasResources_iff_of_pos r _ hpos).mp h3⟩
            push_neg at h1
            omega
          · intro _; rfl
        · rw [if_pos h3]
          constructor
          · intro hf; simp at hf
          · intro hc
            exact absurd ((hasResources_iff_of_pos r _ hpos).mpr hc.2.2) h3
      · rw [if_pos h2]
        constructor
        · intro hf; simp at hf
        · intro hc; exact absurd hc.2.1 h2
  refine ⟨hiff, ?_, ?_⟩
  · intro hvalid
    have hhas : hasResources r (buildingCosts btype) = true :=
      (hasResources_iff_of_pos r _ hpos).mpr (hiff.mp hvalid).2.2
    have hb : placeBuilding w r btype x y cid =
        ((addConstruction w (mkConstruction cid (x, y) btype)),
          (consumeResources r (buildingCosts btype)).1, true) := by
      simp [placeBuilding, hvalid]
    refine ⟨by rw [hb], ?_, ?_, ?_⟩
    · rw [hb]
      simp [addConstruction, markFootprint]
    · intro p hp
      rw [hb]
      simp only [consumeResources, hhas, if_pos]
      rw [consume_foldl_eval _ r p.1 hnd, find?_key_self _ p hnd hp]
    · intro t ht
      rw [hb]
      simp only [consumeResources, hhas, if_pos]
      rw [consume_foldl_eval _ r t hnd, find?_key_none _ t ht]
  · intro hinvalid
    simp [placeBuilding, hinvalid]


/-- C8 witness: a valid woodcutter placement on the all-grass demo world with
the initial ledger, and an application at an out-of-bounds position. -/
theorem placement_validation_witness :
    (isPlacementValid demoWorld initialLedger .woodcutter 3 3 = true) ∧
    ((placeBuilding demoWorld initialLedger .woodcutter 3 3 1).2.2 = true ∧
      (placeBuilding demoWorld initialLedger .woodcutter 3 3 1).1.constructions =
        demoWorld.constructions ++ [mkConstruction 1 (3, 3) .woodcutter] ∧
      (∀ p ∈ buildingCosts .woodcutter,
        (placeBuilding demoWorld initialLedger .woodcutter 3 3 1).2.1 p.1 =
          initialLedger p.1 - p.2) ∧
      (∀ t, t ∉ reqKeys (buildingCosts .woodcutter) →
        (placeBuilding demoWorld initialLedger .woodcutter 3 3 1).2.1 t =
          initialLedger t)) := by
  have hv : isPlacementValid demoWorld initialLedger .woodcutter 3 3 = true := by
    rw [(placement_validation demoWorld initialLedger .woodcutter 3 3 1).1]
    refine ⟨by decide, ?_, by decide⟩
    intro gy _ gx _
    exact ⟨rfl, rfl⟩
  exact ⟨hv, (placement_validation demoWorld initialLedger .woodcutter 3 3 1).2.1 hv⟩

/-!
## C9: porter fetch (`Porter._fetchResourceFromWarehouse`)

The proximity test compares `sqrt(dx² + dz²) < tileSize * 2.1` on world
coordinates; since both sides are non-negative this is equivalent to the
square-free `dx² + dz² < (tileSize * 2.1)²`, which is how the threshold is
modelled over `ℚ`.  The porter's `targetConstruction` is a held object
reference; the abandon check reads that object directly (no world-list
membership test in this handler), so the model passes the referenced
construction's current state in the porter record.
-/

/-- Porter finite-state-machine states. -/
inductive PorterFSM where
  | idle | fetchingResource | deliveringResource
deriving DecidableEq, Repr

/-- Porter state relevant to `_fetchResourceFromWarehouse`. -/
structure PorterState where
  position : ℤ × ℤ
  state : PorterFSM
  carriedResource : Option ResourceType
  carriedAmount : ℤ
  resourceToFetch : ResourceType
  targetConstruction : Option ConstructionRecord
  targetPosition : Option (ℚ × ℚ)
  isMoving : Bool
  path : List (ℤ × ℤ)

/-- `World.getWorldPosition(gridX, gridZ)`. -/
def getWorldPosition (w : WorldState) (gx gy : ℤ) : ℚ × ℚ :=
  (((gx : ℚ) - (w.width : ℚ) / 2) * w.tileSize,
   ((gy : ℚ) - (w.height : ℚ) / 2) * w.tileSize)

/-- Squared euclidean distance between two world positions. -/
def distSq (a b : ℚ × ℚ) : ℚ := (a.1 - b.1) ^ 2 + (a.2 - b.2) ^ 2

/-- `Porter._fetchResourceFromWarehouse()`: find the warehouse; abandon if
the tracked construction became fully resourced; within `tileSize * 2.1` of
the warehouse interaction point, take 1 unit if available (else leave the
whole state untouched and retry later); otherwise fall back to direct
movement toward the interaction point (the path query is commented out in
the source, so `path.length > 0` is never true). -/
def fetchResourceFromWarehouse (p : PorterState) (w : WorldState) (r : Ledger) :
    PorterState × Ledger :=
  match w.buildings.find? (fun b => b.btype = .warehouse) with
  | none => ({ p with state := .idle }, r)
  | some wh =>
    if (match p.targetConstruction with
        | some tc => hasAllResources tc.alloc
        | none => false) then
      ({ p with
          carriedResource := none
          carriedAmount := 0
          state := .idle }, r)
    else
      let porterW := getWorldPosition w p.position.1 p.position.2
      let whW := getWorldPosition w wh.interactionPoint.1 wh.interactionPoint.2
      if distSq porterW whW < (w.tileSize * (21 / 10)) ^ 2 then
        if 0 < getResource r p.resourceToFetch then
          ({ p with
              carriedResource := some p.resourceToFetch
              carriedAmount := 1
              state := .deliveringResource
              targetPosition := none
              isMoving := false
              path := [] },
           (removeResource r p.resourceToFetch 1).1)
        else (p, r)
      else
        ({ p with targetPosition := some whW, isMoving := true }, r)

/-- C9: a porter in FetchingResource within the warehouse proximity
threshold, whose target construction still needs resources: with a zero
count of the needed type nothing changes at all (it stays in
FetchingResource carrying nothing and retries later); with a positive count
it removes exactly one unit of that type and transitions to
DeliveringResource carrying one unit. -/
theorem porter_fetch (p : PorterState) (w : WorldState) (r : Ledger)
    (wh : BuildingRecord)
    (hwh : w.buildings.find? (fun b => b.btype = .warehouse) = some wh)
    (tc : ConstructionRecord) (htc : p.targetConstruction = some tc)
    (hneed : hasAllResources tc.alloc = false)
    (hstate : p.state = .fetchingResource)
    (hclose : distSq (getWorldPosition w p.position.1 p.position.2)
      (getWorldPosition w wh.interactionPoint.1 wh.interactionPoint.2) <
      (w.tileSize * (21 / 10)) ^ 2) :
    (getResource r p.resourceToFetch = 0 →
      fetchResourceFromWarehouse p w r = (p, r) ∧
      (fetchResourceFromWarehouse p w r).1.state = .fetchingResource) ∧
    (0 < getResource r p.resourceToFetch →
      (fetchResourceFromWarehouse p w r).1.state = .deliveringResource ∧
      (fetchResourceFromWarehouse p w r).1.carriedResource = some p.resourceToFetch ∧
      (fetchResourceFromWarehouse p w r).1.carriedAmount = 1 ∧
      (fetchResourceFromWarehouse p w r).2 p.resourceToFetch =
        r p.resourceToFetch - 1 ∧
      (∀ t, t ≠ p.resourceToFetch →
        (fetchResourceFromWarehouse p w r).2 t = r t)) := by
  have hmatch : (match p.targetConstruction with
      | some tc => hasAllResources tc.alloc
      | none => false) = false := by
    rw [htc]
    exact hneed
  constructor
  · intro hzero
    have hnotpos : ¬ 0 < getResource r p.resourceToFetch := by
      rw [hzero]; exact lt_irrefl 0
    constructor
    · simp only [fetchResourceFromWarehouse, hwh, hmatch, Bool.false_eq_true,
        if_false, if_pos hclose, if_neg hnotpos]
    · simp only [fetchResourceFromWarehouse, hwh, hmatch, Bool.false_eq_true,
        if_false, if_pos hclose, if_neg hnotpos]
      exact hstate
  · intro hpos
    have hcond : ¬ (r p.resourceToFetch = 0 ∨ r p.resourceToFetch < 1) := by
      unfold getResource at hpos
      push_neg
      omega
    simp only [fetchResourceFromWarehouse, hwh, hmatch, Bool.false_eq_true,
      if_false, if_pos hclose, if_pos hpos]
    refine ⟨trivial, trivial, trivial, ?_, ?_⟩
    · simp [removeResource, hcond]
    · intro t ht
      simp [removeResource, hcond, ht]

/-- The spec's scenario world: warehouse at the grid origin. -/
def demoFetchWorld : WorldState :=
  { width := 10, height := 10, tileSize := 2,
    terrainAt := fun _ _ => .grass, occupantAt := fun _ _ => none,
    buildableAt := fun _ _ => true,
    buildings := [mkWarehouse (0, 0)], constructions := [demoWoodSite] }

/-- A porter one tile below the warehouse interaction point, fetching a plank
for the woodcutter site. -/
def demoPorter : PorterState :=
  { position := (0, 1)
    state := .fetchingResource
    carriedResource := none
    carriedAmount := 0
    resourceToFetch := .plank
    targetConstruction := some demoWoodSite
    targetPosition := none
    isMoving := false
    path := [] }

/-- The empty ledger (`plank = 0`). -/
def emptyLedger : Ledger := fun _ => 0

/-- C9 witness: the spec's scenario — with `plank = 0` the fetch changes
nothing; after `addResource(plank, 1)` the same porter's fetch succeeds,
removing the plank and transitioning to DeliveringResource carrying 1. -/
theorem porter_fetch_witness :
    (demoFetchWorld.buildings.find? (fun b => b.btype = .warehouse) =
        some (mkWarehouse (0, 0)) ∧
      demoPorter.targetConstruction = some demoWoodSite ∧
      hasAllResources demoWoodSite.alloc = false ∧
      demoPorter.state = .fetchingResource ∧
      distSq (getWorldPosition demoFetchWorld demoPorter.position.1 demoPorter.position.2)
        (getWorldPosition demoFetchWorld (mkWarehouse (0, 0)).interactionPoint.1
          (mkWarehouse (0, 0)).interactionPoint.2) <
        (demoFetchWorld.tileSize * (21 / 10)) ^ 2 ∧
      getResource emptyLedger demoPorter.resourceToFetch = 0 ∧
      0 < getResource (addResource emptyLedger .plank 1) demoPorter.resourceToFetch) ∧
    (fetchResourceFromWarehouse demoPorter demoFetchWorld emptyLedger =
        (demoPorter, emptyLedger)) ∧
    ((fetchResourceFromWarehouse demoPorter demoFetchWorld
        (addResource emptyLedger .plank 1)).1.state = .deliveringResource ∧
      (fetchResourceFromWarehouse demoPorter demoFetchWorld
        (addResource emptyLedger .plank 1)).1.carriedResource = some .plank ∧
      (fetchResourceFromWarehouse demoPorter demoFetchWorld
        (addResource emptyLedger .plank 1)).1.carriedAmount = 1 ∧
      (fetchResourceFromWarehouse demoPorter demoFetchWorld
        (addResource emptyLedger .plank 1)).2 .plank =
        (addResource emptyLedger .plank 1) .plank - 1) := by
  have h1 : demoFetchWorld.buildings.find? (fun b => b.btype = .warehouse) =
      some (mkWarehouse (0, 0)) := by
    simp [demoFetchWorld, mkWarehouse, mkBuildingBase, List.find?]
  have h2 : demoPorter.targetConstruction = some demoWoodSite := rfl
  have h3 : hasAllResources demoWoodSite.alloc = false := by decide
  have h4 : demoPorter.state = .fetchingResource := rfl
  have h5 : distSq (getWorldPosition demoFetchWorld demoPorter.position.1
        demoPorter.position.2)
      (getWorldPosition demoFetchWorld (mkWarehouse (0, 0)).interactionPoint.1
        (mkWarehouse (0, 0)).interactionPoint.2) <
      (demoFetchWorld.tileSize * (21 / 10)) ^ 2 := by
    norm_num [distSq, getWorldPosition, demoFetchWorld, demoPorter, mkWarehouse,
      mkBuildingBase, defineInteractionPoint]
  have h6 : getResource emptyLedger demoPorter.resourceToFetch = 0 := rfl
  have h7 : 0 < getResource (addResource emptyLedger .plank 1)
      demoPorter.resourceToFetch := by decide
  refine ⟨⟨h1, h2, h3, h4, h5, h6, h7⟩, ?_, ?_⟩
  · exact ((porter_fetch demoPorter demoFetchWorld emptyLedger
      (mkWarehouse (0, 0)) h1 demoWoodSite h2 h3 h4 h5).1 h6).1
  · have := (porter_fetch demoPorter demoFetchWorld (addResource emptyLedger .plank 1)
      (mkWarehouse (0, 0)) h1 demoWoodSite h2 h3 h4 h5).2 h7
    exact ⟨this.1, this.2.1, this.2.2.1, this.2.2.2.1⟩

/-!
## PathFinder (`PathFinding.js`)

Modelling notes, each tied to a line of the source:

* Node keys are the strings `"x,y"`; the key map is injective on integer
  coordinates and `_reconstructPath` parses it back, so keys are modelled as
  the coordinate pair itself.
* `gScore.get(k) || Infinity` (lines 52 and 63): an absent key gives
  `undefined` (falsy) and a stored `0` is also falsy, so both become
  `Infinity`; a stored `Infinity` is truthy and stays.  Scores live in
  `WithTop ℕ`, with `⊤` playing `Infinity` (`Infinity + 1 === Infinity`
  matches `⊤ + 1 = ⊤`).  In particular the start node's stored `gScore` of
  `0` is falsy, so the very first tentative score is already `⊤`.
* `openSet.sort((a, b) => a.f - b.f)`: `Array.prototype.sort` is stable
  (ES2019).  When both `f` values are `Infinity` the comparator returns
  `NaN`, which the engine treats as equal ordering; for mixed values the
  comparator orders by magnitude.  The sort is therefore modelled as the
  stable ascending sort by `≤` on `WithTop ℕ` (insertion sort below).
* The `while` loops terminate on every input reached by the program; they
  are modelled with an explicit fuel argument, and the fuel chosen in
  `findPath` is proved sufficient (the loop never returns `none` there).
-/

/-- A grid cell. -/
abbrev GPos := ℤ × ℤ

/-- `PathFinder._isPassable(x, y)`: in bounds, not water/mountain, and if
occupied only the occupant's entry tile (bottom-right corner for warehouse,
bottom edge otherwise) is passable. -/
def isPassable (w : WorldState) (x y : ℤ) : Bool :=
  if x < 0 ∨ y < 0 ∨ x ≥ w.width ∨ y ≥ w.height then false
  else if w.terrainAt x y = .water ∨ w.terrainAt x y = .mountain then false
  else
    match w.occupantAt x y with
    | some b =>
      if b.btype = .warehouse then
        decide (x = b.position.1 + b.size.1 - 1 ∧ y = b.position.2 + b.size.2 - 1)
      else
        decide (y = b.position.2 + b.size.2 - 1 ∧
          b.position.1 ≤ x ∧ x < b.position.1 + b.size.1)
    | none => true

/-- `PathFinder._getNeighbors`: the four cardinal moves (N, E, S, W in
source order), kept when in bounds and passable on the grid snapshot
(`_createGrid` memoises `_isPassable` for every in-bounds cell). -/
def getNeighbors (w : WorldState) (x y : ℤ) : List GPos :=
  [(x, y - 1), (x + 1, y), (x, y + 1), (x - 1, y)].filter fun q =>
    decide (0 ≤ q.1 ∧ 0 ≤ q.2 ∧ q.1 < w.width ∧ q.2 < w.height) &&
      isPassable w q.1 q.2

/-- `PathFinder._heuristic`: Manhattan distance. -/
def heuristic (x1 y1 x2 y2 : ℤ) : ℕ := (x1 - x2).natAbs + (y1 - y2).natAbs

/-- An open-set entry (`{ key, x, y, f }`; the key is the position). -/
structure ANode where
  pos : GPos
  f : WithTop ℕ
deriving DecidableEq

/-- The A* loop state. -/
structure AState where
  openSet : List ANode
  closedSet : List GPos
  cameFrom : List (GPos × GPos)
  gScore : List (GPos × WithTop ℕ)
  fScore : List (GPos × WithTop ℕ)

/-- JS `Map` lookup; `Map.set` is modelled by consing, so the most recent
entry wins. -/
def mfind {α : Type} (m : List (GPos × α)) (k : GPos) : Option α :=
  (m.find? fun e => e.1 = k).map Prod.snd

/-- `value || Infinity` on a score lookup: absent and `0` are falsy. -/
def falsyOrInf (g : Option (WithTop ℕ)) : WithTop ℕ :=
  match g with
  | none => ⊤
  | some v => if v = 0 then ⊤ else v

/-- Stable insertion of a node into a list sorted by `f`. -/
def insertByF (n : ANode) : List ANode → List ANode
  | [] => [n]
  | m :: l => if n.f ≤ m.f then n :: m :: l else m :: insertByF n l

/-- Stable ascending sort by `f` (the model of `openSet.sort`). -/
def sortByF : List ANode → List ANode
  | [] => []
  | n :: l => insertByF n (sortByF l)

/-- The body of the `for (const neighbor of neighbors)` loop: skip closed
neighbors; compute the tentative score `(gScore.get(current) || Infinity) + 1`;
push unseen neighbors (with `f = tentative + heuristic`); `continue` when the
tentative score is not strictly better; otherwise record parent and scores
and refresh the open entry's `f`. -/
def processNeighbor (w : WorldState) (endP : GPos) (cp : GPos) (s : AState)
    (nb : GPos) : AState :=
  if nb ∈ s.closedSet then s
  else
    let tg := falsyOrInf (mfind s.gScore cp) + 1
    let fNew := tg + (heuristic nb.1 nb.2 endP.1 endP.2 : WithTop ℕ)
    match s.openSet.findIdx? (fun n => n.pos = nb) with
    | none =>
      { openSet := s.openSet ++ [⟨nb, fNew⟩]
        closedSet := s.closedSet
        cameFrom := (nb, cp) :: s.cameFrom
        gScore := (nb, tg) :: s.gScore
        fScore := (nb, fNew) :: s.fScore }
    | some i =>
      if falsyOrInf (mfind s.gScore nb) ≤ tg then s
      else
        { openSet := s.openSet.set i ⟨nb, fNew⟩
          closedSet := s.closedSet
          cameFrom := (nb, cp) :: s.cameFrom
          gScore := (nb, tg) :: s.gScore
          fScore := (nb, fNew) :: s.fScore }

/-- `PathFinder._reconstructPath`: walk the parent map from the goal,
prepending each node; the start (which has no parent entry) is excluded.
The fuel passed in `aLoop` is proved sufficient. -/
def reconstructPath (cf : List (GPos × GPos)) : ℕ → GPos → List GPos
  | 0, _ => []
  | fuel + 1, cur =>
    match mfind cf cur with
    | none => []
    | some par => reconstructPath cf fuel par ++ [cur]

/-- The `while (openSet.length > 0)` loop of `findPath`: sort by `f`, shift
the head, return the reconstructed path at the goal, otherwise close the
head and process its neighbors. -/
def aLoop (w : WorldState) (endP : GPos) : ℕ → AState → Option (List GPos)
  | 0, _ => none
  | fuel + 1, s =>
    match sortByF s.openSet with
    | [] => some []
    | cur :: rest =>
      if cur.pos = endP then
        some (reconstructPath s.cameFrom (s.cameFrom.length + 1) cur.pos)
      else
        aLoop w endP fuel
          ((getNeighbors w cur.pos.1 cur.pos.2).foldl
            (processNeighbor w endP cur.pos)
            { s with openSet := rest, closedSet := cur.pos :: s.closedSet })

/-- The initial loop state of `findPath(startX, startY, endX, endY)`. -/
def initAState (sx sy ex ey : ℤ) : AState :=
  { openSet := [⟨(sx, sy), (heuristic sx sy ex ey : ℕ)⟩]
    closedSet := []
    cameFrom := []
    gScore := [((sx, sy), 0)]
    fScore := [((sx, sy), (heuristic sx sy ex ey : ℕ))] }

/-- Fuel sufficient for the search loop: one pop per closable node. -/
def aFuel (w : WorldState) : ℕ := w.width.toNat * w.height.toNat + 2

/-- `PathFinder.findPath`. -/
def findPath (w : WorldState) (sx sy ex ey : ℤ) : List GPos :=
  match aLoop w (ex, ey) (aFuel w) (initAState sx sy ex ey) with
  | some p => p
  | none => []

/-!
### The graph the search explores
-/

/-- A cell is inside the grid. -/
def inBoundsP (w : WorldState) (q : GPos) : Prop :=
  0 ≤ q.1 ∧ 0 ≤ q.2 ∧ q.1 < w.width ∧ q.2 < w.height

/-- One legal move: 4-adjacent, into an in-bounds passable cell. -/
def stepOK (w : WorldState) (q p : GPos) : Prop :=
  (p = (q.1, q.2 - 1) ∨ p = (q.1 + 1, q.2) ∨ p = (q.1, q.2 + 1) ∨
    p = (q.1 - 1, q.2)) ∧
  inBoundsP w p ∧ isPassable w p.1 p.2 = true

/-- Reachability from `s0` in exactly `n` moves. -/
inductive ReachN (w : WorldState) (s0 : GPos) : ℕ → GPos → Prop where
  | zero : ReachN w s0 0 s0
  | succ {n : ℕ} {p q : GPos} :
      ReachN w s0 n p → stepOK w p q → ReachN w s0 (n + 1) q

/-- Reachability. -/
def Reaches (w : WorldState) (s0 p : GPos) : Prop := ∃ n, ReachN w s0 n p

/-- `n` is the exact shortest-route length from `s0` to `p`. -/
def IsDist (w : WorldState) (s0 p : GPos) (n : ℕ) : Prop :=
  ReachN w s0 n p ∧ ∀ m, ReachN w s0 m p → n ≤ m

/-- A recorded route: `l` is the cell sequence after `s0`, ending at `p`. -/
inductive Trace (w : WorldState) (s0 : GPos) : List GPos → GPos → Prop where
  | nil : Trace w s0 [] s0
  | snoc {l : List GPos} {p q : GPos} :
      Trace w s0 l p → stepOK w p q → Trace w s0 (l ++ [q]) q

section PathLemmas

/-- Sorting a singleton is the identity. -/
theorem sortByF_singleton (n : ANode) : sortByF [n] = [n] := rfl

/-- When every `f` is `⊤` the comparator ties everywhere, so the stable sort
is the identity (this is the state after the first pop; see `falsyOrInf`). -/
theorem sortByF_id_of_top (l : List ANode) (h : ∀ n ∈ l, n.f = ⊤) :
    sortByF l = l := by
  induction l with
  | nil => rfl
  | cons n l ih =>
    have hn : n.f = ⊤ := h n (List.mem_cons_self _ _)
    rw [sortByF, ih fun m hm => h m (List.mem_cons_of_mem _ hm)]
    cases l with
    | nil => rfl
    | cons m l2 =>
      have hm : m.f = ⊤ := h m (by simp)
      simp [insertByF, hn, hm]

theorem mfind_nil {α : Type} (k : GPos) : mfind ([] : List (GPos × α)) k = none := rfl

theorem mfind_cons_self {α : Type} (k : GPos) (v : α) (m : List (GPos × α)) :
    mfind ((k, v) :: m) k = some v := by
  simp [mfind, List.find?_cons]

theorem mfind_cons_ne {α : Type} {k k' : GPos} (v : α) (m : List (GPos × α))
    (h : k ≠ k') : mfind ((k, v) :: m) k' = mfind m k' := by
  have : (decide ((k, v).1 = k')) = false := by simp [h]
  simp only [mfind, List.find?_cons, this]

theorem mfind_eq_none_iff {α : Type} (m : List (GPos × α)) (k : GPos) :
    mfind m k = none ↔ ∀ e ∈ m, e.1 ≠ k := by
  simp only [mfind, Option.map_eq_none', List.find?_eq_none, decide_eq_true_eq]

theorem mfind_eq_some {α : Type} {m : List (GPos × α)} {k : GPos} {v : α}
    (h : mfind m k = some v) : (k, v) ∈ m := by
  simp only [mfind, Option.map_eq_some'] at h
  obtain ⟨e, he, hev⟩ := h
  have h1 := List.find?_some he
  have h2 := List.mem_of_find?_eq_some he
  simp only [decide_eq_true_eq] at h1
  have hkv : (k, v) = e := Prod.ext h1.symm hev.symm
  rw [hkv]
  exact h2

theorem mfind_append_of_none {α : Type} {m1 : List (GPos × α)}
    (m2 : List (GPos × α)) {k : GPos} (h : ∀ e ∈ m1, e.1 ≠ k) :
    mfind (m1 ++ m2) k = mfind m2 k := by
  induction m1 with
  | nil => rfl
  | cons e m1 ih =>
    cases e with
    | mk k1 v1 =>
      rw [List.cons_append, mfind_cons_ne v1 _ (h (k1, v1) (by simp))]
      exact ih fun e he => h e (List.mem_cons_of_mem _ he)

/-- Every stored score being `0` or `⊤` (which holds throughout the run)
forces `value || Infinity` to `⊤`. -/
theorem falsyOrInf_top {m : List (GPos × WithTop ℕ)} {k : GPos}
    (h : ∀ e ∈ m, e.2 = 0 ∨ e.2 = ⊤) : falsyOrInf (mfind m k) = ⊤ := by
  cases hm : mfind m k with
  | none => rfl
  | some v =>
    have := h _ (mfind_eq_some hm)
    simp only at this
    rcases this with h0 | htop
    · simp [falsyOrInf, h0]
    · subst htop
      simp [falsyOrInf]

theorem findIdx?_none_aux {α : Type} (p : α → Bool) :
    ∀ (l : List α) (i : ℕ), List.findIdx? p l i = none ↔ ∀ x ∈ l, p x = false := by
  intro l
  induction l with
  | nil => intro i; simp [List.findIdx?]
  | cons a l ih =>
    intro i
    by_cases hp : p a = true
    · simp [List.findIdx?, hp]
    · have hp' : p a = false := by simpa using hp
      simp only [List.findIdx?, hp', Bool.false_eq_true, if_false, ih,
        List.mem_cons]
      constructor
      · intro h x hx
        rcases hx with rfl | hx
        · exact hp'
        · exact h x hx
      · intro h x hx
        exact h x (Or.inr hx)

theorem findIdx?_eq_none_iff' {α : Type} (p : α → Bool) (l : List α) :
    l.findIdx? p = none ↔ ∀ x ∈ l, p x = false :=
  findIdx?_none_aux p l 0

/-- The four candidate moves of `_getNeighbors` are pairwise distinct. -/
theorem neighborCandidates_nodup (x y : ℤ) :
    ([(x, y - 1), (x + 1, y), (x, y + 1), (x - 1, y)] : List GPos).Nodup := by
  simp only [List.nodup_cons, List.mem_cons, List.not_mem_nil, or_false,
    List.mem_singleton, List.nodup_nil, and_true, Prod.mk.injEq, not_or,
    true_and, not_false_iff]
  omega

theorem getNeighbors_nodup (w : WorldState) (x y : ℤ) :
    (getNeighbors w x y).Nodup :=
  (neighborCandidates_nodup x y).filter _

/-- Membership in `_getNeighbors` is exactly one legal move. -/
theorem mem_getNeighbors_iff (w : WorldState) (x y : ℤ) (p : GPos) :
    p ∈ getNeighbors w x y ↔ stepOK w (x, y) p := by
  simp only [getNeighbors, List.mem_filter, List.mem_cons, List.not_mem_nil,
    or_false, List.mem_singleton, Bool.and_eq_true, decide_eq_true_eq, stepOK,
    inBoundsP]
  try tauto

/-- A cell is never its own neighbor. -/
theorem getNeighbors_ne_self (w : WorldState) (x y : ℤ) (p : GPos)
    (h : p ∈ getNeighbors w x y) : p ≠ (x, y) := by
  have hm := (mem_getNeighbors_iff w x y p).mp h
  intro hc
  subst hc
  rcases hm.1 with h1 | h1 | h1 | h1 <;> (injection h1 with ha hb; omega)

end PathLemmas

section DistanceLemmas

variable {w : WorldState} {s0 : GPos}

theorem reachN_zero {p : GPos} (h : ReachN w s0 0 p) : p = s0 := by
  cases h
  rfl

theorem isDist_unique {p : GPos} {m n : ℕ}
    (hm : IsDist w s0 p m) (hn : IsDist w s0 p n) : m = n :=
  le_antisymm (hm.2 n hn.1) (hn.2 m hm.1)

theorem reaches_isDist {p : GPos} (h : Reaches w s0 p) :
    ∃ n, IsDist w s0 p n := by
  obtain ⟨n0, hn0⟩ := h
  have hne : Set.Nonempty {n | ReachN w s0 n p} := ⟨n0, hn0⟩
  have hmem : sInf {n | ReachN w s0 n p} ∈ {n | ReachN w s0 n p} :=
    Nat.sInf_mem hne
  exact ⟨sInf {n | ReachN w s0 n p}, hmem, fun m hm => Nat.sInf_le hm⟩

theorem isDist_start : IsDist w s0 s0 0 :=
  ⟨ReachN.zero, fun m _ => Nat.zero_le m⟩

theorem isDist_zero_iff {p : GPos} {n : ℕ} (h : IsDist w s0 p n) :
    n = 0 ↔ p = s0 := by
  constructor
  · intro h0
    subst h0
    exact reachN_zero h.1
  · intro hp
    subst hp
    exact le_antisymm (h.2 0 ReachN.zero) (Nat.zero_le n)

theorem isDist_pred {p : GPos} {n : ℕ} (h : IsDist w s0 p (n + 1)) :
    ∃ q, IsDist w s0 q n ∧ stepOK w q p := by
  obtain ⟨hr, hmin⟩ := h
  cases hr with
  | succ hq hstep =>
    rename_i q
    refine ⟨q, ⟨hq, ?_⟩, hstep⟩
    intro m hm
    have := hmin (m + 1) (ReachN.succ hm hstep)
    omega

theorem trace_length_reachN {l : List GPos} {p : GPos}
    (h : Trace w s0 l p) : ReachN w s0 l.length p := by
  induction h with
  | nil => exact ReachN.zero
  | snoc ht hs ih =>
    rw [List.length_append, List.length_singleton]
    exact ReachN.succ ih hs

theorem trace_mem {l : List GPos} {p : GPos} (h : Trace w s0 l p) :
    ∀ q ∈ l, inBoundsP w q ∧ isPassable w q.1 q.2 = true := by
  induction h with
  | nil => intro q hq; cases hq
  | snoc ht hs ih =>
    intro q hq
    rcases List.mem_append.mp hq with hq | hq
    · exact ih q hq
    · rw [List.mem_singleton] at hq
      subst hq
      exact ⟨hs.2.1, hs.2.2⟩

theorem chain_snoc {α : Type} (r : α → α → Prop) :
    ∀ (l : List α) (a b : α), List.Chain r a l →
      (l.getLast? = none → r a b) →
      (∀ x, l.getLast? = some x → r x b) →
      List.Chain r a (l ++ [b]) := by
  intro l
  induction l with
  | nil =>
    intro a b _ h0 _
    exact List.Chain.cons (h0 rfl) List.Chain.nil
  | cons c l ih =>
    intro a b hc h0 hs
    rw [List.cons_append]
    cases hc with
    | cons hac hcl =>
      refine List.Chain.cons hac (ih c b hcl ?_ ?_)
      · intro hl
        have : l = [] := by simpa using hl
        subst this
        exact hs c rfl
      · intro x hx
        apply hs x
        cases l with
        | nil => cases hx
        | cons d l2 =>
          rw [List.getLast?_cons_cons]
          exact hx

theorem trace_chain {l : List GPos} {p : GPos} (h : Trace w s0 l p) :
    List.Chain (stepOK w) s0 l ∧ (l ≠ [] → l.getLast? = some p) ∧
      (l = [] → p = s0) := by
  induction h with
  | nil => exact ⟨List.Chain.nil, fun hl => absurd rfl hl, fun _ => rfl⟩
  | snoc ht hs ih =>
    rename_i l q1 q2
    obtain ⟨hchain, hlast, hnil⟩ := ih
    refine ⟨?_, ?_, ?_⟩
    · refine chain_snoc _ l s0 q2 hchain ?_ ?_
      · intro hl
        have : l = [] := by simpa using hl
        rw [hnil this] at hs
        exact hs
      · intro x hx
        have hl : l ≠ [] := by
          intro he
          subst he
          cases hx
        have := hlast hl
        rw [this] at hx
        cases hx
        exact hs
    · intro _
      rw [List.getLast?_concat]
    · intro he
      exact absurd he (by simp)

end DistanceLemmas
/-- A cell the search has discovered: closed, or present in the open set. -/
def Disc (s : AState) (p : GPos) : Prop :=
  p ∈ s.closedSet ∨ ∃ n ∈ s.openSet, n.pos = p

instance (s : AState) (p : GPos) : Decidable (Disc s p) := by
  unfold Disc
  infer_instance

/-- The extended state after discovering one fresh cell. -/
def discoverCell (t : AState) (cp nb : GPos) : AState :=
  { openSet := t.openSet ++ [⟨nb, ⊤⟩]
    closedSet := t.closedSet
    cameFrom := (nb, cp) :: t.cameFrom
    gScore := (nb, ⊤) :: t.gScore
    fScore := (nb, ⊤) :: t.fScore }

theorem disc_discoverCell {t : AState} {cp nb q : GPos} :
    Disc (discoverCell t cp nb) q ↔ Disc t q ∨ q = nb := by
  simp only [Disc, discoverCell, List.mem_append, List.mem_singleton]
  constructor
  · rintro (hc | ⟨n, hn | hn, hpos⟩)
    · exact Or.inl (Or.inl hc)
    · exact Or.inl (Or.inr ⟨n, hn, hpos⟩)
    · subst hn
      exact Or.inr hpos.symm
  · rintro ((hc | ⟨n, hn, hpos⟩) | rfl)
    · exact Or.inl hc
    · exact Or.inr ⟨n, Or.inl hn, hpos⟩
    · exact Or.inr ⟨⟨q, ⊤⟩, Or.inr rfl, rfl⟩

/-- Under the run-wide fact that every stored score is `0` or `⊤`, one
neighbor step either skips an already-discovered cell entirely (the
`continue` branch fires because `⊤ ≥ ⊤`) or discovers a fresh cell with
parent `cp` and `f = g = ⊤`. -/
theorem processNeighbor_char (w : WorldState) (endP cp : GPos) (t : AState)
    (nb : GPos) (hg : ∀ e ∈ t.gScore, e.2 = 0 ∨ e.2 = ⊤) :
    processNeighbor w endP cp t nb =
      if Disc t nb then t else discoverCell t cp nb := by
  have htg : falsyOrInf (mfind t.gScore cp) + 1 = ⊤ := by
    rw [falsyOrInf_top hg]
    simp
  unfold processNeighbor
  by_cases hc : nb ∈ t.closedSet
  · rw [if_pos hc, if_pos (show Disc t nb from Or.inl hc)]
  · rw [if_neg hc]
    cases hfi : t.openSet.findIdx? (fun n => n.pos = nb) with
    | none =>
      have hnx : ¬ ∃ n ∈ t.openSet, n.pos = nb := by
        rw [findIdx?_eq_none_iff'] at hfi
        rintro ⟨n, hn, hpos⟩
        have := hfi n hn
        rw [hpos] at this
        simp at this
      rw [if_neg (show ¬ Disc t nb from fun h => h.elim hc hnx)]
      simp [discoverCell, htg]
    | some i =>
      have hex : ∃ n ∈ t.openSet, n.pos = nb := by
        by_contra hnx
        have hnone : t.openSet.findIdx? (fun n => n.pos = nb) = none := by
          rw [findIdx?_eq_none_iff']
          intro n hn
          by_contra hb
          exact hnx ⟨n, hn, by simpa using hb⟩
        rw [hnone] at hfi
        cases hfi
      rw [if_pos (show Disc t nb from Or.inr hex)]
      have hle : falsyOrInf (mfind t.gScore nb) ≤
          falsyOrInf (mfind t.gScore cp) + 1 := by
        rw [falsyOrInf_top hg, htg]
      split
      · rename_i heq
        cases heq
      · rename_i cid heq
        simp [hle]

/-- The neighbors of the popped node that are discovered for the first time
in this iteration (in neighbor order). -/
def freshOf (t : AState) (nbs : List GPos) : List GPos :=
  nbs.filter fun nb => decide (¬ Disc t nb)

theorem mem_freshOf {t : AState} {nbs : List GPos} {q : GPos} :
    q ∈ freshOf t nbs ↔ q ∈ nbs ∧ ¬ Disc t q := by
  simp [freshOf]

theorem freshOf_nodup {t : AState} {nbs : List GPos} (h : nbs.Nodup) :
    (freshOf t nbs).Nodup :=
  h.filter _

theorem freshOf_discoverCell {t : AState} {cp nb : GPos} {rest : List GPos}
    (hnb : nb ∉ rest) : freshOf (discoverCell t cp nb) rest = freshOf t rest := by
  unfold freshOf
  apply List.filter_congr
  intro q hq
  have hqnb : q ≠ nb := fun he => hnb (he ▸ hq)
  simp only [decide_eq_decide, disc_discoverCell]
  tauto

/-- Explicit description of the whole neighbor loop: every neighbor not yet
discovered is appended to the open set with `f = ⊤`, recorded with parent
`cp`, and given scores `⊤`; discovered neighbors leave the state
untouched. -/
theorem fold_char (w : WorldState) (endP cp : GPos) :
    ∀ (nbs : List GPos) (t : AState), nbs.Nodup →
      (∀ e ∈ t.gScore, e.2 = 0 ∨ e.2 = ⊤) →
      nbs.foldl (processNeighbor w endP cp) t =
        { openSet := t.openSet ++ (freshOf t nbs).map fun q => ⟨q, ⊤⟩
          closedSet := t.closedSet
          cameFrom := ((freshOf t nbs).reverse.map fun q => (q, cp)) ++ t.cameFrom
          gScore := ((freshOf t nbs).reverse.map fun q => (q, ⊤)) ++ t.gScore
          fScore := ((freshOf t nbs).reverse.map fun q => (q, ⊤)) ++ t.fScore } := by
  intro nbs
  induction nbs with
  | nil =>
    intro t _ _
    simp [freshOf]
  | cons nb rest ih =>
    intro t hnd hg
    have hnb : nb ∉ rest := (List.nodup_cons.mp hnd).1
    have hrest : rest.Nodup := (List.nodup_cons.mp hnd).2
    rw [List.foldl_cons, processNeighbor_char w endP cp t nb hg]
    by_cases hdisc : Disc t nb
    · rw [if_pos hdisc]
      have hfr : freshOf t (nb :: rest) = freshOf t rest := by
        simp [freshOf, hdisc]
      rw [hfr]
      exact ih t hrest hg
    · rw [if_neg hdisc]
      have hfr : freshOf t (nb :: rest) = nb :: freshOf t rest := by
        simp [freshOf, hdisc]
      have hg2 : ∀ e ∈ (discoverCell t cp nb).gScore, e.2 = 0 ∨ e.2 = ⊤ := by
        intro e he
        rcases List.mem_cons.mp he with rfl | he2
        · exact Or.inr rfl
        · exact hg e he2
      rw [ih (discoverCell t cp nb) hrest hg2, hfr, freshOf_discoverCell hnb]
      simp [discoverCell, List.map_append]

/-- Looking up any key of a constant-valued prepended block. -/
theorem mfind_const_keys {α : Type} (c : α) :
    ∀ (ks : List GPos) (m : List (GPos × α)) (p : GPos), p ∈ ks →
      mfind ((ks.map fun q => (q, c)) ++ m) p = some c := by
  intro ks
  induction ks with
  | nil => intro m p hp; cases hp
  | cons k ks ih =>
    intro m p hp
    rcases List.mem_cons.mp hp with rfl | hp2
    · exact mfind_cons_self p c _
    · by_cases hk : k = p
      · subst hk
        exact mfind_cons_self k c _
      · rw [List.map_cons, List.cons_append, mfind_cons_ne _ _ hk]
        exact ih m p hp2

/-- The invariant of the search loop, holding from the end of the first
iteration on.  `startP` is the queried start cell, `endP` the goal. -/
structure AInv (w : WorldState) (startP endP : GPos) (s : AState) : Prop where
  openTop : ∀ n ∈ s.openSet, n.f = ⊤
  openNodup : (s.openSet.map ANode.pos).Nodup
  closedNodup : s.closedSet.Nodup
  openClosedDisj : ∀ n ∈ s.openSet, n.pos ∉ s.closedSet
  gVals : ∀ e ∈ s.gScore, e.2 = 0 ∨ e.2 = ⊤
  startClosed : startP ∈ s.closedSet
  endNotClosed : endP ∉ s.closedSet
  closedHome : ∀ p ∈ s.closedSet, p = startP ∨ inBoundsP w p
  openBounds : ∀ n ∈ s.openSet, inBoundsP w n.pos
  discReach : ∀ p, Disc s p → Reaches w startP p
  cfKeys : ∀ e ∈ s.cameFrom, Disc s e.1 ∧ e.1 ≠ startP
  cfComplete : ∀ p, Disc s p → p ≠ startP → ∃ q, mfind s.cameFrom p = some q
  cfValid : ∀ p q, mfind s.cameFrom p = some q →
    stepOK w q p ∧ Disc s q ∧
      ∃ dq, IsDist w startP q dq ∧ IsDist w startP p (dq + 1)
  expanded : ∀ c ∈ s.closedSet, ∀ p, stepOK w c p → Disc s p
  frontier : ∃ d A B, s.openSet = A ++ B ∧
    (∀ n ∈ A, IsDist w startP n.pos d) ∧
    (∀ n ∈ B, IsDist w startP n.pos (d + 1)) ∧
    (∀ c ∈ s.closedSet, ∃ dc, dc ≤ d ∧ IsDist w startP c dc) ∧
    (∀ p m, IsDist w startP p m → m ≤ d → Disc s p)

/-- When every open node sits at depth `d + 1`, the cover property lifts
from `d` to `d + 1`: a depth-`d + 1` cell has a depth-`d` predecessor, which
is discovered, cannot be in the open set (wrong depth), hence is closed and
fully expanded. -/
theorem cover_up {w : WorldState} {startP : GPos} {s : AState} (d : ℕ)
    (hexp : ∀ c ∈ s.closedSet, ∀ p, stepOK w c p → Disc s p)
    (hopen : ∀ n ∈ s.openSet, IsDist w startP n.pos (d + 1))
    (hcover : ∀ p m, IsDist w startP p m → m ≤ d → Disc s p) :
    ∀ p m, IsDist w startP p m → m ≤ d + 1 → Disc s p := by
  intro p m hpm hle
  by_cases hm : m ≤ d
  · exact hcover p m hpm hm
  · have hmeq : m = d + 1 := by omega
    subst hmeq
    obtain ⟨q, hq, hstep⟩ := isDist_pred hpm
    have hqdisc : Disc s q := hcover q d hq le_rfl
    rcases hqdisc with hqc | ⟨n, hn, hpos⟩
    · exact hexp q hqc p hstep
    · exfalso
      have h1 := hopen n hn
      rw [hpos] at h1
      have := isDist_unique h1 hq
      omega

/-- A nonempty open set can always be split so that its head carries the
frontier depth `d` (bumping `d` by one when the depth-`d` block is empty). -/
theorem frontier_norm {w : WorldState} {startP endP : GPos} {s : AState}
    (inv : AInv w startP endP s) (cur : ANode) (rest : List ANode)
    (hopen : s.openSet = cur :: rest) :
    ∃ d A2 B, rest = A2 ++ B ∧ IsDist w startP cur.pos d ∧
      (∀ n ∈ A2, IsDist w startP n.pos d) ∧
      (∀ n ∈ B, IsDist w startP n.pos (d + 1)) ∧
      (∀ c ∈ s.closedSet, ∃ dc, dc ≤ d ∧ IsDist w startP c dc) ∧
      (∀ p m, IsDist w startP p m → m ≤ d → Disc s p) := by
  obtain ⟨d, A, B, hsplit, hA, hB, hclosed, hcover⟩ := inv.frontier
  rw [hopen] at hsplit
  cases A with
  | cons a A2 =>
    rw [List.cons_append] at hsplit
    injection hsplit with h1 h2
    subst h1
    refine ⟨d, A2, B, h2, hA cur (List.mem_cons_self _ _), ?_, hB, hclosed, hcover⟩
    intro n hn
    exact hA n (List.mem_cons_of_mem _ hn)
  | nil =>
    rw [List.nil_append] at hsplit
    have hmem : ∀ n ∈ s.openSet, IsDist w startP n.pos (d + 1) := by
      intro n hn
      rw [hopen] at hn
      rw [hsplit] at hn
      exact hB n hn
    refine ⟨d + 1, rest, [], by simp, ?_, ?_, ?_, ?_, ?_⟩
    · exact hmem cur (by rw [hopen]; exact List.mem_cons_self _ _)
    · intro n hn
      exact hmem n (by rw [hopen]; exact List.mem_cons_of_mem _ hn)
    · intro n hn
      cases hn
    · intro c hc
      obtain ⟨dc, hdc, hd⟩ := hclosed c hc
      exact ⟨dc, by omega, hd⟩
    · exact cover_up d inv.expanded hmem hcover

/-- The state right after the pop: head removed, its cell closed. -/
def popClose (s : AState) (rest : List ANode) (cp : GPos) : AState :=
  { s with openSet := rest, closedSet := cp :: s.closedSet }

/-- The state at the end of an iteration, with `fresh` the newly discovered
neighbor cells of the popped cell `cp`. -/
def expandState (s : AState) (rest : List ANode) (cp : GPos)
    (fresh : List GPos) : AState :=
  { openSet := rest ++ fresh.map fun q => ⟨q, ⊤⟩
    closedSet := cp :: s.closedSet
    cameFrom := (fresh.reverse.map fun q => (q, cp)) ++ s.cameFrom
    gScore := (fresh.reverse.map fun q => (q, ⊤)) ++ s.gScore
    fScore := (fresh.reverse.map fun q => (q, ⊤)) ++ s.fScore }

/-- The neighbor loop of one iteration, written with the named states. -/
theorem fold_popClose (w : WorldState) (endP : GPos) (s : AState) (cp : GPos)
    (rest : List ANode)
    (hg : ∀ e ∈ s.gScore, e.2 = 0 ∨ e.2 = ⊤) :
    (getNeighbors w cp.1 cp.2).foldl (processNeighbor w endP cp)
        (popClose s rest cp) =
      expandState s rest cp
        (freshOf (popClose s rest cp) (getNeighbors w cp.1 cp.2)) := by
  rw [fold_char w endP cp (getNeighbors w cp.1 cp.2) (popClose s rest cp)
    (getNeighbors_nodup w cp.1 cp.2) hg]
  rfl

/-- Cells discovered by `expandState` are the old ones plus `fresh`. -/
theorem disc_expandState {s : AState} {cur : ANode} {rest : List ANode}
    {fresh : List GPos} (hopen : s.openSet = cur :: rest) (p : GPos) :
    Disc (expandState s rest cur.pos fresh) p ↔ Disc s p ∨ p ∈ fresh := by
  have h1 : (expandState s rest cur.pos fresh).closedSet =
      cur.pos :: s.closedSet := rfl
  have h2 : (expandState s rest cur.pos fresh).openSet =
      rest ++ fresh.map fun q => (⟨q, ⊤⟩ : ANode) := rfl
  unfold Disc
  rw [h1, h2]
  constructor
  · intro h
    rcases h with hc | ⟨n, hn, hp⟩
    · rcases List.mem_cons.mp hc with rfl | hc2
      · exact Or.inl (Or.inr ⟨cur, by rw [hopen]; exact List.mem_cons_self _ _, rfl⟩)
      · exact Or.inl (Or.inl hc2)
    · rcases List.mem_append.mp hn with hn | hn
      · refine Or.inl (Or.inr ⟨n, ?_, hp⟩)
        rw [hopen]
        exact List.mem_cons_of_mem _ hn
      · obtain ⟨q, hq, he⟩ := List.mem_map.mp hn
        right
        rw [← hp, ← he]
        exact hq
  · intro h
    rcases h with (hc | ⟨n, hn, hp⟩) | hf
    · exact Or.inl (List.mem_cons_of_mem _ hc)
    · rw [hopen] at hn
      rcases List.mem_cons.mp hn with rfl | hn2
      · left
        rw [← hp]
        exact List.mem_cons_self _ _
      · exact Or.inr ⟨n, List.mem_append_left _ hn2, hp⟩
    · exact Or.inr ⟨⟨p, ⊤⟩, List.mem_append_right _ (List.mem_map_of_mem _ hf), rfl⟩

/-- Cells discovered by `popClose` are exactly those discovered before. -/
theorem disc_popClose {s : AState} {cur : ANode} {rest : List ANode}
    (hopen : s.openSet = cur :: rest) (p : GPos) :
    Disc (popClose s rest cur.pos) p ↔ Disc s p := by
  have h1 : (popClose s rest cur.pos).closedSet = cur.pos :: s.closedSet := rfl
  have h2 : (popClose s rest cur.pos).openSet = rest := rfl
  unfold Disc
  rw [h1, h2]
  constructor
  · intro h
    rcases h with hc | ⟨n, hn, hp⟩
    · rcases List.mem_cons.mp hc with rfl | hc2
      · exact Or.inr ⟨cur, by rw [hopen]; exact List.mem_cons_self _ _, rfl⟩
      · exact Or.inl hc2
    · refine Or.inr ⟨n, ?_, hp⟩
      rw [hopen]
      exact List.mem_cons_of_mem _ hn
  · intro h
    rcases h with hc | ⟨n, hn, hp⟩
    · exact Or.inl (List.mem_cons_of_mem _ hc)
    · rw [hopen] at hn
      rcases List.mem_cons.mp hn with rfl | hn2
      · left
        rw [← hp]
        exact List.mem_cons_self _ _
      · exact Or.inr ⟨n, hn2, hp⟩

/-- One full loop iteration (pop the head, close it, process all neighbors)
preserves the invariant, provided the popped node is not the goal. -/
theorem step_preserve {w : WorldState} {startP endP : GPos} {s : AState}
    (inv : AInv w startP endP s) (cur : ANode) (rest : List ANode)
    (hopen : s.openSet = cur :: rest) (hne : cur.pos ≠ endP) :
    AInv w startP endP
      ((getNeighbors w cur.pos.1 cur.pos.2).foldl (processNeighbor w endP cur.pos)
        (popClose s rest cur.pos)) := by
  obtain ⟨d, A2, B, hrest, hcurd, hA2, hB, hclosed, hcover⟩ :=
    frontier_norm inv cur rest hopen
  have hcurmem : cur ∈ s.openSet := by
    rw [hopen]
    exact List.mem_cons_self _ _
  rw [fold_popClose w endP s cur.pos rest inv.gVals]
  set nbs := getNeighbors w cur.pos.1 cur.pos.2 with hnbs
  set fresh := freshOf (popClose s rest cur.pos) nbs with hfreshdef
  have hdisc1 : ∀ p, Disc (popClose s rest cur.pos) p ↔ Disc s p :=
    disc_popClose hopen
  have hdisc2 : ∀ p, Disc (expandState s rest cur.pos fresh) p ↔
      Disc s p ∨ p ∈ fresh := disc_expandState hopen
  have hfresh_mem : ∀ q ∈ fresh, q ∈ nbs ∧ ¬ Disc s q := by
    intro q hq
    have h1 := mem_freshOf.mp hq
    exact ⟨h1.1, fun hd => h1.2 ((hdisc1 q).mpr hd)⟩
  have hfresh_step : ∀ q ∈ fresh, stepOK w cur.pos q := by
    intro q hq
    have h1 := (hfresh_mem q hq).1
    rw [hnbs] at h1
    have h2 := (mem_getNeighbors_iff w cur.pos.1 cur.pos.2 q).mp h1
    simpa using h2
  have hfresh_dist : ∀ q ∈ fresh, IsDist w startP q (d + 1) := by
    intro q hq
    have hr : ReachN w startP (d + 1) q := ReachN.succ hcurd.1 (hfresh_step q hq)
    obtain ⟨m, hm⟩ := reaches_isDist ⟨d + 1, hr⟩
    have hmle : m ≤ d + 1 := hm.2 _ hr
    by_cases hmd : m ≤ d
    · exact absurd (hcover q m hm hmd) (hfresh_mem q hq).2
    · have hme : m = d + 1 := by omega
      rw [← hme]
      exact hm
  have hfresh_ne_start : ∀ q ∈ fresh, q ≠ startP := by
    intro q hq he
    subst he
    exact (hfresh_mem q hq).2 (Or.inl inv.startClosed)
  have hfresh_nodup : fresh.Nodup :=
    freshOf_nodup (by rw [hnbs]; exact getNeighbors_nodup w _ _)
  have hrestpos : (rest.map ANode.pos).Nodup ∧ cur.pos ∉ rest.map ANode.pos := by
    have h1 := inv.openNodup
    rw [hopen, List.map_cons, List.nodup_cons] at h1
    exact ⟨h1.2, h1.1⟩
  have hfresh_notopen : ∀ q ∈ fresh, ∀ n ∈ rest, n.pos ≠ q := by
    intro q hq n hn he
    exact (hfresh_mem q hq).2 (Or.inr ⟨n, by rw [hopen]; exact List.mem_cons_of_mem _ hn, he⟩)
  have hposmap : (List.map ANode.pos (fresh.map fun q => (⟨q, ⊤⟩ : ANode))) = fresh := by
    rw [List.map_map]
    exact List.map_id'' (fun _ => rfl) fresh
  have hcfshape : ∀ p, p ∉ fresh →
      mfind ((fresh.reverse.map fun q => (q, cur.pos)) ++ s.cameFrom) p =
      mfind s.cameFrom p := by
    intro p hp
    apply mfind_append_of_none
    intro e hee
    obtain ⟨q2, hq2, heq2⟩ := List.mem_map.mp hee
    rw [List.mem_reverse] at hq2
    rw [← heq2]
    intro hc
    simp only at hc
    subst hc
    exact hp hq2
  refine ⟨?_, ?_, ?_, ?_, ?_, ?_, ?_, ?_, ?_, ?_, ?_, ?_, ?_, ?_, ?_⟩
  · -- openTop
    intro n hn
    rcases List.mem_append.mp hn with hn | hn
    · exact inv.openTop n (by rw [hopen]; exact List.mem_cons_of_mem _ hn)
    · obtain ⟨q, _, he⟩ := List.mem_map.mp hn
      rw [← he]
  · -- openNodup
    show (List.map ANode.pos (rest ++ fresh.map fun q => (⟨q, ⊤⟩ : ANode))).Nodup
    rw [List.map_append, hposmap]
    apply List.Nodup.append hrestpos.1 hfresh_nodup
    intro p hp hp2
    obtain ⟨n, hn, he⟩ := List.mem_map.mp hp
    exact hfresh_notopen p hp2 n hn he
  · -- closedNodup
    rw [show (expandState s rest cur.pos fresh).closedSet = cur.pos :: s.closedSet
      from rfl, List.nodup_cons]
    exact ⟨inv.openClosedDisj cur hcurmem, inv.closedNodup⟩
  · -- openClosedDisj
    intro n hn
    rcases List.mem_append.mp hn with hn | hn
    · intro hc
      rcases List.mem_cons.mp hc with he | hc2
      · exact hrestpos.2 (he ▸ List.mem_map_of_mem _ hn)
      · exact inv.openClosedDisj n
          (by rw [hopen]; exact List.mem_cons_of_mem _ hn) hc2
    · obtain ⟨q, hq, he⟩ := List.mem_map.mp hn
      intro hc
      rw [← he] at hc
      rcases List.mem_cons.mp hc with he2 | hc2
      · exact (hfresh_mem q hq).2 (Or.inr ⟨cur, hcurmem, he2.symm⟩)
      · exact (hfresh_mem q hq).2 (Or.inl hc2)
  · -- gVals
    intro e he
    rcases List.mem_append.mp he with he | he
    · obtain ⟨q, _, heq⟩ := List.mem_map.mp he
      rw [← heq]
      exact Or.inr rfl
    · exact inv.gVals e he
  · -- startClosed
    exact List.mem_cons_of_mem _ inv.startClosed
  · -- endNotClosed
    intro hc
    rcases List.mem_cons.mp hc with he | hc2
    · exact hne he.symm
    · exact inv.endNotClosed hc2
  · -- closedHome
    intro p hp
    rcases List.mem_cons.mp hp with rfl | hp2
    · exact Or.inr (inv.openBounds cur hcurmem)
    · exact inv.closedHome p hp2
  · -- openBounds
    intro n hn
    rcases List.mem_append.mp hn with hn | hn
    · exact inv.openBounds n (by rw [hopen]; exact List.mem_cons_of_mem _ hn)
    · obtain ⟨q, hq, he⟩ := List.mem_map.mp hn
      rw [← he]
      exact (hfresh_step q hq).2.1
  · -- discReach
    intro p hp
    rcases (hdisc2 p).mp hp with hd | hf
    · exact inv.discReach p hd
    · exact ⟨d + 1, (hfresh_dist p hf).1⟩
  · -- cfKeys
    intro e he
    rcases List.mem_append.mp he with he | he
    · obtain ⟨q, hq, heq⟩ := List.mem_map.mp he
      rw [List.mem_reverse] at hq
      rw [← heq]
      exact ⟨(hdisc2 q).mpr (Or.inr hq), hfresh_ne_start q hq⟩
    · have h1 := inv.cfKeys e he
      exact ⟨(hdisc2 e.1).mpr (Or.inl h1.1), h1.2⟩
  · -- cfComplete
    intro p hp hps
    rcases (hdisc2 p).mp hp with hd | hf
    · obtain ⟨q, hq⟩ := inv.cfComplete p hd hps
      have hpf : p ∉ fresh := fun hf2 => (hfresh_mem p hf2).2 hd
      refine ⟨q, ?_⟩
      show mfind ((fresh.reverse.map fun q => (q, cur.pos)) ++ s.cameFrom) p = some q
      rw [hcfshape p hpf]
      exact hq
    · refine ⟨cur.pos, ?_⟩
      show mfind ((fresh.reverse.map fun q => (q, cur.pos)) ++ s.cameFrom) p =
        some cur.pos
      exact mfind_const_keys cur.pos fresh.reverse s.cameFrom p
        (List.mem_reverse.mpr hf)
  · -- cfValid
    intro p q hpq
    by_cases hf : p ∈ fresh
    · have h1 := mfind_const_keys cur.pos fresh.reverse s.cameFrom p
        (List.mem_reverse.mpr hf)
      have h2 : mfind (expandState s rest cur.pos fresh).cameFrom p =
          some cur.pos := h1
      rw [h2] at hpq
      injection hpq with he
      subst he
      refine ⟨hfresh_step p hf, (hdisc2 cur.pos).mpr
        (Or.inl (Or.inr ⟨cur, hcurmem, rfl⟩)), d, hcurd, hfresh_dist p hf⟩
    · have h2 : mfind (expandState s rest cur.pos fresh).cameFrom p =
          mfind s.cameFrom p := hcfshape p hf
      rw [h2] at hpq
      have h3 := inv.cfValid p q hpq
      exact ⟨h3.1, (hdisc2 q).mpr (Or.inl h3.2.1), h3.2.2⟩
  · -- expanded
    intro c hc p hstep
    rcases List.mem_cons.mp hc with rfl | hc2
    · have hpn : p ∈ nbs := by
        rw [hnbs]
        exact (mem_getNeighbors_iff w cur.pos.1 cur.pos.2 p).mpr hstep
      by_cases hd : Disc s p
      · exact (hdisc2 p).mpr (Or.inl hd)
      · have hpf : p ∈ fresh :=
          mem_freshOf.mpr ⟨hpn, fun h1 => hd ((hdisc1 p).mp h1)⟩
        exact (hdisc2 p).mpr (Or.inr hpf)
    · exact (hdisc2 p).mpr (Or.inl (inv.expanded c hc2 p hstep))
  · -- frontier
    refine ⟨d, A2, B ++ fresh.map fun q => (⟨q, ⊤⟩ : ANode), ?_, hA2, ?_, ?_, ?_⟩
    · show rest ++ fresh.map (fun q => (⟨q, ⊤⟩ : ANode)) =
        A2 ++ (B ++ fresh.map fun q => (⟨q, ⊤⟩ : ANode))
      rw [hrest, List.append_assoc]
    · intro n hn
      rcases List.mem_append.mp hn with hn | hn
      · exact hB n hn
      · obtain ⟨q, hq, he⟩ := List.mem_map.mp hn
        rw [← he]
        exact hfresh_dist q hq
    · intro c hc
      rcases List.mem_cons.mp hc with rfl | hc2
      · exact ⟨d, le_rfl, hcurd⟩
      · exact hclosed c hc2
    · intro p m hpm hmle
      exact (hdisc2 p).mpr (Or.inl (hcover p m hpm hmle))

/-- One unfolding of the search loop at positive fuel. -/
theorem aLoop_succ (w : WorldState) (endP : GPos) (fuel : ℕ) (s : AState) :
    aLoop w endP (fuel + 1) s =
      match sortByF s.openSet with
      | [] => some []
      | cur :: rest =>
        if cur.pos = endP then
          some (reconstructPath s.cameFrom (s.cameFrom.length + 1) cur.pos)
        else
          aLoop w endP fuel
            ((getNeighbors w cur.pos.1 cur.pos.2).foldl
              (processNeighbor w endP cur.pos) (popClose s rest cur.pos)) := rfl

/-- One unfolding of the reconstruction loop at positive fuel. -/
theorem reconstructPath_succ (cf : List (GPos × GPos)) (f : ℕ) (cur : GPos) :
    reconstructPath cf (f + 1) cur =
      match mfind cf cur with
      | none => []
      | some par => reconstructPath cf f par ++ [cur] := rfl

/-- When the open set is exhausted, every reachable cell is closed: the
closed set is closed under `expanded`. -/
theorem empty_open_complete {w : WorldState} {startP endP : GPos} {s : AState}
    (inv : AInv w startP endP s) (hopen : s.openSet = []) :
    ∀ p, Reaches w startP p → p ∈ s.closedSet := by
  have hdisc : ∀ p, Disc s p → p ∈ s.closedSet := by
    intro p hp
    rcases hp with h | ⟨n, hn, _⟩
    · exact h
    · rw [hopen] at hn
      cases hn
  intro p hp
  obtain ⟨n, hn⟩ := hp
  induction hn with
  | zero => exact hdisc _ (Or.inl inv.startClosed)
  | succ hr hstep ih => exact hdisc _ (inv.expanded _ ih _ hstep)

/-- The closed set never exceeds the grid size plus the (possibly
out-of-bounds) start cell. -/
theorem closed_card_bound {w : WorldState} {startP endP : GPos} {s : AState}
    (inv : AInv w startP endP s) :
    s.closedSet.length ≤ w.width.toNat * w.height.toNat + 1 := by
  classical
  have hsub : s.closedSet.toFinset ⊆
      insert startP ((Finset.Ico 0 w.width) ×ˢ (Finset.Ico 0 w.height)) := by
    intro p hp
    rw [List.mem_toFinset] at hp
    rcases inv.closedHome p hp with rfl | hb
    · exact Finset.mem_insert_self _ _
    · refine Finset.mem_insert_of_mem ?_
      rw [Finset.mem_product, Finset.mem_Ico, Finset.mem_Ico]
      exact ⟨⟨hb.1, hb.2.2.1⟩, hb.2.1, hb.2.2.2⟩
  have hcard : ((Finset.Ico (0 : ℤ) w.width) ×ˢ (Finset.Ico (0 : ℤ) w.height)).card =
      w.width.toNat * w.height.toNat := by
    rw [Finset.card_product, Int.card_Ico, Int.card_Ico, Int.sub_zero, Int.sub_zero]
  calc s.closedSet.length = s.closedSet.toFinset.card :=
        (List.toFinset_card_of_nodup inv.closedNodup).symm
    _ ≤ (insert startP ((Finset.Ico (0 : ℤ) w.width) ×ˢ
          (Finset.Ico (0 : ℤ) w.height))).card := Finset.card_le_card hsub
    _ ≤ ((Finset.Ico (0 : ℤ) w.width) ×ˢ (Finset.Ico (0 : ℤ) w.height)).card + 1 :=
        Finset.card_insert_le _ _
    _ = w.width.toNat * w.height.toNat + 1 := by rw [hcard]

/-- Walking the parent chain of a discovered cell at distance `n` yields `n`
distinct `cameFrom` keys. -/
theorem chain_keys {w : WorldState} {startP endP : GPos} {s : AState}
    (inv : AInv w startP endP s) :
    ∀ n p, IsDist w startP p n → Disc s p →
      ∃ keys : List GPos, keys.Nodup ∧ keys.length = n ∧
        ∀ k ∈ keys, (∃ v, mfind s.cameFrom k = some v) ∧
          ∃ m, m ≤ n ∧ IsDist w startP k m := by
  intro n
  induction n with
  | zero =>
    intro p _ _
    exact ⟨[], List.nodup_nil, rfl, fun k hk => absurd hk (List.not_mem_nil k)⟩
  | succ n ih =>
    intro p hp hdisc
    have hps : p ≠ startP := by
      intro he
      subst he
      have := isDist_unique hp isDist_start
      omega
    obtain ⟨q, hq⟩ := inv.cfComplete p hdisc hps
    obtain ⟨hstep, hqdisc, dq, hqdist, hpdist⟩ := inv.cfValid p q hq
    have hdq : dq = n := by
      have := isDist_unique hp hpdist
      omega
    subst hdq
    obtain ⟨keys, hnd, hlen, hprop⟩ := ih q hqdist hqdisc
    refine ⟨p :: keys, ?_, by rw [List.length_cons, hlen], ?_⟩
    · rw [List.nodup_cons]
      refine ⟨?_, hnd⟩
      intro hmem
      obtain ⟨-, m, hm, hkd⟩ := hprop p hmem
      have := isDist_unique hp hkd
      omega
    · intro k hk
      rcases List.mem_cons.mp hk with rfl | hk2
      · exact ⟨⟨q, hq⟩, dq + 1, le_rfl, hp⟩
      · obtain ⟨hv, m, hm, hkd⟩ := hprop k hk2
        exact ⟨hv, m, by omega, hkd⟩

/-- The distance of any discovered cell is bounded by the size of the
parent map (so the reconstruction fuel `cameFrom.length + 1` suffices). -/
theorem dist_le_cameFrom_length {w : WorldState} {startP endP : GPos}
    {s : AState} (inv : AInv w startP endP s) {p : GPos} {n : ℕ}
    (hd : IsDist w startP p n) (hdisc : Disc s p) :
    n ≤ s.cameFrom.length := by
  classical
  obtain ⟨keys, hnd, hlen, hprop⟩ := chain_keys inv n p hd hdisc
  have hsub : keys.toFinset ⊆ (s.cameFrom.map Prod.fst).toFinset := by
    intro k hk
    rw [List.mem_toFinset] at hk ⊢
    obtain ⟨⟨v, hv⟩, -⟩ := hprop k hk
    exact List.mem_map.mpr ⟨(k, v), mfind_eq_some hv, rfl⟩
  calc n = keys.length := hlen.symm
    _ = keys.toFinset.card := (List.toFinset_card_of_nodup hnd).symm
    _ ≤ (s.cameFrom.map Prod.fst).toFinset.card := Finset.card_le_card hsub
    _ ≤ (s.cameFrom.map Prod.fst).length := List.toFinset_card_le _
    _ = s.cameFrom.length := List.length_map _ _

/-- With enough fuel, `_reconstructPath` returns a valid route of length
exactly the distance of the queried discovered cell. -/
theorem reconstruct_trace {w : WorldState} {startP endP : GPos} {s : AState}
    (inv : AInv w startP endP s) :
    ∀ fuel p n, IsDist w startP p n → Disc s p → n < fuel →
      Trace w startP (reconstructPath s.cameFrom fuel p) p ∧
        (reconstructPath s.cameFrom fuel p).length = n := by
  intro fuel
  induction fuel with
  | zero =>
    intro p n _ _ h
    omega
  | succ f ih =>
    intro p n hd hdisc hlt
    by_cases hps : p = startP
    · subst hps
      have hn0 : n = 0 := isDist_unique hd isDist_start
      have hnone : mfind s.cameFrom p = none := by
        rw [mfind_eq_none_iff]
        intro e he
        exact (inv.cfKeys e he).2
      rw [reconstructPath_succ, hnone]
      exact ⟨Trace.nil, by rw [hn0]; rfl⟩
    · obtain ⟨q, hq⟩ := inv.cfComplete p hdisc hps
      obtain ⟨hstep, hqdisc, dq, hqdist, hpdist⟩ := inv.cfValid p q hq
      have hnd : n = dq + 1 := isDist_unique hd hpdist
      obtain ⟨ht, hl⟩ := ih q dq hqdist hqdisc (by omega)
      rw [reconstructPath_succ, hq]
      refine ⟨Trace.snoc ht hstep, ?_⟩
      rw [List.length_append, hl, List.length_singleton, hnd]

/-- Any value the loop returns from an invariant state is sound: the empty
path when the goal is unreachable, and a shortest valid route when it is. -/
theorem aLoop_sound {w : WorldState} {startP endP : GPos} :
    ∀ fuel (s : AState), AInv w startP endP s → ∀ r,
      aLoop w endP fuel s = some r →
      (¬ Reaches w startP endP → r = []) ∧
      (Reaches w startP endP →
        Trace w startP r endP ∧ IsDist w startP endP r.length) := by
  intro fuel
  induction fuel with
  | zero =>
    intro s _ r hr
    exact Option.noConfusion hr
  | succ f ih =>
    intro s inv r hr
    rw [aLoop_succ, sortByF_id_of_top s.openSet inv.openTop] at hr
    cases hop : s.openSet with
    | nil =>
      rw [hop] at hr
      have hr2 : some ([] : List GPos) = some r := hr
      injection hr2 with hr3
      subst hr3
      refine ⟨fun _ => rfl, fun hre => ?_⟩
      exact absurd (empty_open_complete inv hop endP hre) inv.endNotClosed
    | cons cur rest =>
      rw [hop] at hr
      have hr2 : (if cur.pos = endP then
          some (reconstructPath s.cameFrom (s.cameFrom.length + 1) cur.pos)
        else aLoop w endP f ((getNeighbors w cur.pos.1 cur.pos.2).foldl
          (processNeighbor w endP cur.pos) (popClose s rest cur.pos))) =
          some r := hr
      by_cases hce : cur.pos = endP
      · rw [if_pos hce] at hr2
        injection hr2 with hr3
        rw [hce] at hr3
        obtain ⟨d, A2, B, -, hcurd, -⟩ := frontier_norm inv cur rest hop
        rw [hce] at hcurd
        have hdisc : Disc s endP :=
          Or.inr ⟨cur, by rw [hop]; exact List.mem_cons_self _ _, hce⟩
        have hdle : d ≤ s.cameFrom.length := dist_le_cameFrom_length inv hcurd hdisc
        obtain ⟨ht, hl⟩ := reconstruct_trace inv (s.cameFrom.length + 1) endP d
          hcurd hdisc (by omega)
        subst hr3
        refine ⟨fun hnr => absurd (inv.discReach endP hdisc) hnr, fun _ => ⟨ht, ?_⟩⟩
        rw [hl]
        exact hcurd
      · rw [if_neg hce] at hr2
        exact ih _ (step_preserve inv cur rest hop hce) r hr2

/-- From an invariant state the loop terminates within the fuel budget:
every iteration that does not return grows the closed set by one and the
closed set is bounded by the grid size plus one. -/
theorem aLoop_term {w : WorldState} {startP endP : GPos} :
    ∀ fuel (s : AState), AInv w startP endP s →
      w.width.toNat * w.height.toNat + 2 ≤ fuel + s.closedSet.length →
      ∃ r, aLoop w endP fuel s = some r := by
  intro fuel
  induction fuel with
  | zero =>
    intro s inv hfuel
    have := closed_card_bound inv
    omega
  | succ f ih =>
    intro s inv hfuel
    rw [aLoop_succ, sortByF_id_of_top s.openSet inv.openTop]
    cases hop : s.openSet with
    | nil => exact ⟨[], rfl⟩
    | cons cur rest =>
      by_cases hce : cur.pos = endP
      · refine ⟨reconstructPath s.cameFrom (s.cameFrom.length + 1) cur.pos, ?_⟩
        show (if cur.pos = endP then
            some (reconstructPath s.cameFrom (s.cameFrom.length + 1) cur.pos)
          else aLoop w endP f ((getNeighbors w cur.pos.1 cur.pos.2).foldl
            (processNeighbor w endP cur.pos) (popClose s rest cur.pos))) =
            some (reconstructPath s.cameFrom (s.cameFrom.length + 1) cur.pos)
        rw [if_pos hce]
      · have inv2 := step_preserve inv cur rest hop hce
        have hlen : ((getNeighbors w cur.pos.1 cur.pos.2).foldl
            (processNeighbor w endP cur.pos)
            (popClose s rest cur.pos)).closedSet.length =
            s.closedSet.length + 1 := by
          rw [fold_popClose w endP s cur.pos rest inv.gVals]
          rfl
        obtain ⟨r, hr⟩ := ih _ inv2 (by omega)
        refine ⟨r, ?_⟩
        show (if cur.pos = endP then
            some (reconstructPath s.cameFrom (s.cameFrom.length + 1) cur.pos)
          else aLoop w endP f ((getNeighbors w cur.pos.1 cur.pos.2).foldl
            (processNeighbor w endP cur.pos) (popClose s rest cur.pos))) = some r
        rw [if_neg hce]
        exact hr

/-- After the first iteration (start popped and closed, its fresh neighbors
opened at depth 1), the loop invariant holds. -/
theorem init_inv (w : WorldState) (sx sy ex ey : ℤ)
    (hne : ((sx, sy) : GPos) ≠ (ex, ey)) :
    AInv w (sx, sy) (ex, ey)
      ((getNeighbors w sx sy).foldl (processNeighbor w (ex, ey) (sx, sy))
        (popClose (initAState sx sy ex ey) [] (sx, sy))) := by
  have hg : ∀ e ∈ (initAState sx sy ex ey).gScore, e.2 = 0 ∨ e.2 = ⊤ := by
    intro e he
    rcases List.mem_singleton.mp he with rfl
    exact Or.inl rfl
  have heq : ((getNeighbors w sx sy).foldl (processNeighbor w (ex, ey) (sx, sy))
      (popClose (initAState sx sy ex ey) [] (sx, sy))) =
      expandState (initAState sx sy ex ey) [] (sx, sy)
        (freshOf (popClose (initAState sx sy ex ey) [] (sx, sy))
          (getNeighbors w sx sy)) :=
    fold_popClose w (ex, ey) (initAState sx sy ex ey) (sx, sy) [] hg
  rw [heq]
  have hdiscP : ∀ p, Disc (popClose (initAState sx sy ex ey) [] (sx, sy)) p ↔
      p = (sx, sy) := by
    intro p
    constructor
    · intro h
      rcases h with hc | ⟨n, hn, _⟩
      · exact List.mem_singleton.mp hc
      · exact absurd hn (List.not_mem_nil n)
    · intro h
      refine Or.inl ?_
      rw [h]
      exact List.mem_singleton.mpr rfl
  set fresh := freshOf (popClose (initAState sx sy ex ey) [] (sx, sy))
    (getNeighbors w sx sy) with hfr
  have hfnb : ∀ q ∈ fresh, q ∈ getNeighbors w sx sy := by
    intro q hq
    rw [hfr] at hq
    exact (mem_freshOf.mp hq).1
  have hnotdisc : ∀ q ∈ fresh,
      ¬ Disc (popClose (initAState sx sy ex ey) [] (sx, sy)) q := by
    intro q hq
    rw [hfr] at hq
    exact (mem_freshOf.mp hq).2
  have hfself : ∀ q ∈ fresh, q ≠ (sx, sy) := fun q hq he =>
    hnotdisc q hq ((hdiscP q).mpr he)
  have hfstep : ∀ q ∈ fresh, stepOK w (sx, sy) q := fun q hq =>
    (mem_getNeighbors_iff w sx sy q).mp (hfnb q hq)
  have hstepfresh : ∀ q, stepOK w (sx, sy) q → q ∈ fresh := by
    intro q hs
    have hq : q ∈ getNeighbors w sx sy := (mem_getNeighbors_iff w sx sy q).mpr hs
    rw [hfr]
    exact mem_freshOf.mpr ⟨hq, fun hd =>
      getNeighbors_ne_self w sx sy q hq ((hdiscP q).mp hd)⟩
  have hfnodup : fresh.Nodup := by
    rw [hfr]
    exact freshOf_nodup (getNeighbors_nodup w sx sy)
  have hdist1 : ∀ q ∈ fresh, IsDist w (sx, sy) q 1 := by
    intro q hq
    refine ⟨ReachN.succ ReachN.zero (hfstep q hq), ?_⟩
    intro m hm
    rcases Nat.eq_zero_or_pos m with h0 | h1
    · subst h0
      exact absurd (reachN_zero hm) (hfself q hq)
    · omega
  have hdiscS : ∀ p,
      Disc (expandState (initAState sx sy ex ey) [] (sx, sy) fresh) p ↔
        p = (sx, sy) ∨ p ∈ fresh := by
    intro p
    have h2 : Disc (expandState (initAState sx sy ex ey) [] (sx, sy) fresh) p ↔
        Disc (initAState sx sy ex ey) p ∨ p ∈ fresh :=
      @disc_expandState (initAState sx sy ex ey)
        ⟨(sx, sy), ((heuristic sx sy ex ey : ℕ) : WithTop ℕ)⟩ [] fresh rfl p
    rw [h2]
    constructor
    · rintro (hd | hf)
      · left
        rcases hd with hc | ⟨n, hn, hp⟩
        · exact absurd hc (List.not_mem_nil p)
        · rcases List.mem_singleton.mp hn with rfl
          exact hp.symm
      · exact Or.inr hf
    · rintro (he | hf)
      · exact Or.inl (Or.inr ⟨⟨(sx, sy), ((heuristic sx sy ex ey : ℕ) : WithTop ℕ)⟩,
          List.mem_singleton.mpr rfl, he.symm⟩)
      · exact Or.inr hf
  have hopenS : (expandState (initAState sx sy ex ey) [] (sx, sy) fresh).openSet =
      fresh.map fun q => (⟨q, ⊤⟩ : ANode) := rfl
  have hclS : (expandState (initAState sx sy ex ey) [] (sx, sy) fresh).closedSet =
      [((sx, sy) : GPos)] := rfl
  have hcfS : (expandState (initAState sx sy ex ey) [] (sx, sy) fresh).cameFrom =
      fresh.reverse.map fun q => (q, ((sx, sy) : GPos)) := List.append_nil _
  have hgS : (expandState (initAState sx sy ex ey) [] (sx, sy) fresh).gScore =
      (fresh.reverse.map fun q => (q, (⊤ : WithTop ℕ))) ++
        [(((sx, sy) : GPos), 0)] := rfl
  refine ⟨?_, ?_, ?_, ?_, ?_, ?_, ?_, ?_, ?_, ?_, ?_, ?_, ?_, ?_, ?_⟩
  · -- openTop
    intro n hn
    rw [hopenS] at hn
    obtain ⟨q, hq, rfl⟩ := List.mem_map.mp hn
    rfl
  · -- openNodup
    rw [hopenS, List.map_map]
    have hid : List.map (ANode.pos ∘ fun q => (⟨q, ⊤⟩ : ANode)) fresh = fresh :=
      List.map_id'' (fun _ => rfl) fresh
    rw [hid]
    exact hfnodup
  · -- closedNodup
    rw [hclS]
    simp
  · -- openClosedDisj
    intro n hn hc
    rw [hopenS] at hn
    rw [hclS] at hc
    obtain ⟨q, hq, rfl⟩ := List.mem_map.mp hn
    exact hfself q hq (List.mem_singleton.mp hc)
  · -- gVals
    intro e he
    rw [hgS] at he
    rcases List.mem_append.mp he with h | h
    · obtain ⟨q, hq, rfl⟩ := List.mem_map.mp h
      exact Or.inr rfl
    · rcases List.mem_singleton.mp h with rfl
      exact Or.inl rfl
  · -- startClosed
    rw [hclS]
    exact List.mem_singleton.mpr rfl
  · -- endNotClosed
    intro hc
    rw [hclS] at hc
    exact hne (List.mem_singleton.mp hc).symm
  · -- closedHome
    intro p hp
    rw [hclS] at hp
    exact Or.inl (List.mem_singleton.mp hp)
  · -- openBounds
    intro n hn
    rw [hopenS] at hn
    obtain ⟨q, hq, rfl⟩ := List.mem_map.mp hn
    exact (hfstep q hq).2.1
  · -- discReach
    intro p hp
    rcases (hdiscS p).mp hp with rfl | hf
    · exact ⟨0, ReachN.zero⟩
    · exact ⟨1, (hdist1 p hf).1⟩
  · -- cfKeys
    intro e he
    rw [hcfS] at he
    obtain ⟨q, hq, rfl⟩ := List.mem_map.mp he
    rw [List.mem_reverse] at hq
    exact ⟨(hdiscS q).mpr (Or.inr hq), hfself q hq⟩
  · -- cfComplete
    intro p hp hps
    have hf : p ∈ fresh := by
      rcases (hdiscS p).mp hp with he | hf
      · exact absurd he hps
      · exact hf
    exact ⟨(sx, sy), mfind_const_keys ((sx, sy) : GPos) fresh.reverse [] p
      (List.mem_reverse.mpr hf)⟩
  · -- cfValid
    intro p q hpq
    have hmem := mfind_eq_some hpq
    rw [hcfS] at hmem
    obtain ⟨a, ha, he⟩ := List.mem_map.mp hmem
    rw [List.mem_reverse] at ha
    have h1 : a = p := congrArg Prod.fst he
    have h2 : ((sx, sy) : GPos) = q := congrArg Prod.snd he
    subst h1
    subst h2
    exact ⟨hfstep a ha, (hdiscS (sx, sy)).mpr (Or.inl rfl), 0, isDist_start,
      hdist1 a ha⟩
  · -- expanded
    intro c hc p hstep
    rw [hclS] at hc
    have hce := List.mem_singleton.mp hc
    subst hce
    exact (hdiscS p).mpr (Or.inr (hstepfresh p hstep))
  · -- frontier
    refine ⟨0, [],
      (expandState (initAState sx sy ex ey) [] (sx, sy) fresh).openSet,
      (List.nil_append _).symm, fun n hn => absurd hn (List.not_mem_nil n),
      ?_, ?_, ?_⟩
    · intro n hn
      rw [hopenS] at hn
      obtain ⟨q, hq, rfl⟩ := List.mem_map.mp hn
      exact hdist1 q hq
    · intro c hc
      rw [hclS] at hc
      rcases List.mem_singleton.mp hc with rfl
      exact ⟨0, le_rfl, isDist_start⟩
    · intro p m hm hle
      have h0 : m = 0 := Nat.le_zero.mp hle
      subst h0
      have hp := (isDist_zero_iff hm).mp rfl
      subst hp
      exact Or.inl ((hclS.symm ▸ List.mem_singleton.mpr rfl))

/-- The first iteration of the loop from the initial state. -/
theorem aLoop_init (w : WorldState) (sx sy ex ey : ℤ) (fuel : ℕ) :
    aLoop w (ex, ey) (fuel + 1) (initAState sx sy ex ey) =
      if ((sx, sy) : GPos) = (ex, ey) then some []
      else aLoop w (ex, ey) fuel
        ((getNeighbors w sx sy).foldl (processNeighbor w (ex, ey) (sx, sy))
          (popClose (initAState sx sy ex ey) [] (sx, sy))) := rfl

/-- End-to-end characterisation of `findPath`: the chosen fuel always
suffices (the loop returns a value), and the value is `[]` when the goal is
the start or unreachable, and a shortest valid route otherwise. -/
theorem findPath_main (w : WorldState) (sx sy ex ey : ℤ) :
    ∃ r, aLoop w (ex, ey) (aFuel w) (initAState sx sy ex ey) = some r ∧
      findPath w sx sy ex ey = r ∧
      (((sx, sy) : GPos) = (ex, ey) → r = []) ∧
      (((sx, sy) : GPos) ≠ (ex, ey) →
        (¬ Reaches w (sx, sy) (ex, ey) → r = []) ∧
        (Reaches w (sx, sy) (ex, ey) →
          Trace w (sx, sy) r (ex, ey) ∧ IsDist w (sx, sy) (ex, ey) r.length)) := by
  have hfp : ∀ r, aLoop w (ex, ey) (aFuel w) (initAState sx sy ex ey) = some r →
      findPath w sx sy ex ey = r := by
    intro r hr
    unfold findPath
    rw [hr]
  have hfuel : aFuel w = w.width.toNat * w.height.toNat + 1 + 1 := rfl
  by_cases hse : ((sx, sy) : GPos) = (ex, ey)
  · have h1 : aLoop w (ex, ey) (aFuel w) (initAState sx sy ex ey) = some [] := by
      rw [hfuel, aLoop_init, if_pos hse]
    exact ⟨[], h1, hfp [] h1, fun _ => rfl, fun hne => absurd hse hne⟩
  · have hinv := init_inv w sx sy ex ey hse
    have hginit : ∀ e ∈ (initAState sx sy ex ey).gScore, e.2 = 0 ∨ e.2 = ⊤ := by
      intro e he
      rcases List.mem_singleton.mp he with rfl
      exact Or.inl rfl
    have hclen : ((getNeighbors w sx sy).foldl (processNeighbor w (ex, ey) (sx, sy))
        (popClose (initAState sx sy ex ey) [] (sx, sy))).closedSet.length = 1 := by
      have heq2 : ((getNeighbors w sx sy).foldl (processNeighbor w (ex, ey) (sx, sy))
          (popClose (initAState sx sy ex ey) [] (sx, sy))) =
          expandState (initAState sx sy ex ey) [] (sx, sy)
            (freshOf (popClose (initAState sx sy ex ey) [] (sx, sy))
              (getNeighbors w sx sy)) :=
        fold_popClose w (ex, ey) (initAState sx sy ex ey) (sx, sy) [] hginit
      rw [heq2]
      rfl
    obtain ⟨r, hr⟩ := aLoop_term (w.width.toNat * w.height.toNat + 1) _ hinv
      (by rw [hclen])
    have hsome : aLoop w (ex, ey) (aFuel w) (initAState sx sy ex ey) = some r := by
      rw [hfuel, aLoop_init, if_neg hse]
      exact hr
    have hsound := aLoop_sound (w.width.toNat * w.height.toNat + 1) _ hinv r hr
    exact ⟨r, hsome, hfp r hsome, fun h => absurd h hse, fun _ => hsound⟩

/-- Each legal move changes the Manhattan distance to a fixed cell by at
most one, so every route is at least as long as the Manhattan distance. -/
theorem reach_manhattan_le {w : WorldState} {a : GPos} :
    ∀ {n : ℕ} {b : GPos}, ReachN w a n b → heuristic a.1 a.2 b.1 b.2 ≤ n := by
  intro n b h
  induction h with
  | zero => simp [heuristic]
  | succ hr hs ih =>
    rcases hs.1 with he | he | he | he <;> subst he <;>
      simp only [heuristic] at ih ⊢ <;> omega

/-- On a grid whose in-bounds cells are all passable, any in-bounds cell is
reachable from any other in exactly the Manhattan distance (walk the x gap,
then the y gap; every intermediate cell stays inside the bounding box). -/
theorem manhattan_reach (w : WorldState)
    (hpass : ∀ p : GPos, inBoundsP w p → isPassable w p.1 p.2 = true)
    (a : GPos) (ha : inBoundsP w a) :
    ∀ n (b : GPos), inBoundsP w b → heuristic a.1 a.2 b.1 b.2 = n →
      ReachN w a n b := by
  obtain ⟨ha1, ha2, ha3, ha4⟩ := ha
  intro n
  induction n with
  | zero =>
    intro b _ h0
    have hab : a = b := by
      unfold heuristic at h0
      have h1 : a.1 = b.1 ∧ a.2 = b.2 := by omega
      exact Prod.ext h1.1 h1.2
    rw [← hab]
    exact ReachN.zero
  | succ n ih =>
    intro b hb hn
    obtain ⟨hb1, hb2, hb3, hb4⟩ := hb
    have hbmem : inBoundsP w b := ⟨hb1, hb2, hb3, hb4⟩
    unfold heuristic at hn
    by_cases hx : a.1 = b.1
    · rcases lt_trichotomy a.2 b.2 with hy | hy | hy
      · have hb' : inBoundsP w (b.1, b.2 - 1) := ⟨hb1, by omega, hb3, by omega⟩
        have hstep : stepOK w (b.1, b.2 - 1) b := by
          refine ⟨Or.inr (Or.inr (Or.inl ?_)), hbmem, hpass b hbmem⟩
          exact Prod.ext rfl (by omega)
        have hdist : heuristic a.1 a.2 b.1 (b.2 - 1) = n := by
          unfold heuristic
          omega
        exact ReachN.succ (ih (b.1, b.2 - 1) hb' hdist) hstep
      · exfalso
        omega
      · have hb' : inBoundsP w (b.1, b.2 + 1) := ⟨hb1, by omega, hb3, by omega⟩
        have hstep : stepOK w (b.1, b.2 + 1) b := by
          refine ⟨Or.inl ?_, hbmem, hpass b hbmem⟩
          exact Prod.ext rfl (by omega)
        have hdist : heuristic a.1 a.2 b.1 (b.2 + 1) = n := by
          unfold heuristic
          omega
        exact ReachN.succ (ih (b.1, b.2 + 1) hb' hdist) hstep
    · rcases lt_trichotomy a.1 b.1 with hx2 | hx2 | hx2
      · have hb' : inBoundsP w (b.1 - 1, b.2) := ⟨by omega, hb2, by omega, hb4⟩
        have hstep : stepOK w (b.1 - 1, b.2) b := by
          refine ⟨Or.inr (Or.inl ?_), hbmem, hpass b hbmem⟩
          exact Prod.ext (by omega) rfl
        have hdist : heuristic a.1 a.2 (b.1 - 1) b.2 = n := by
          unfold heuristic
          omega
        exact ReachN.succ (ih (b.1 - 1, b.2) hb' hdist) hstep
      · exact absurd hx2 hx
      · have hb' : inBoundsP w (b.1 + 1, b.2) := ⟨by omega, hb2, by omega, hb4⟩
        have hstep : stepOK w (b.1 + 1, b.2) b := by
          refine ⟨Or.inr (Or.inr (Or.inr ?_)), hbmem, hpass b hbmem⟩
          exact Prod.ext (by omega) rfl
        have hdist : heuristic a.1 a.2 (b.1 + 1) b.2 = n := by
          unfold heuristic
          omega
        exact ReachN.succ (ih (b.1 + 1, b.2) hb' hdist) hstep

instance (w : WorldState) (q : GPos) : Decidable (inBoundsP w q) := by
  unfold inBoundsP
  infer_instance

instance (w : WorldState) (q p : GPos) : Decidable (stepOK w q p) := by
  unfold stepOK
  infer_instance

/-- A small all-grass unoccupied world for concrete path queries. -/
def demoPathWorld : WorldState :=
  { width := 4, height := 4, tileSize := 2,
    terrainAt := fun _ _ => .grass, occupantAt := fun _ _ => none,
    buildableAt := fun _ _ => true, buildings := [], constructions := [] }

/-- C6: whenever the goal is reachable from the start, the length of the
path returned by `findPath` is exactly the length of the shortest
obstacle-respecting 4-connected route, and on a grid whose in-bounds cells
are all passable, with both endpoints in bounds, that length equals the
Manhattan distance.  (The `|| Infinity` falsiness quirk degrades the search
to breadth-first order, which is still length-optimal for unit edges.) -/
theorem findPath_optimal (w : WorldState) (sx sy ex ey : ℤ)
    (hreach : Reaches w (sx, sy) (ex, ey)) :
    IsDist w (sx, sy) (ex, ey) (findPath w sx sy ex ey).length ∧
      ((∀ p : GPos, inBoundsP w p → isPassable w p.1 p.2 = true) →
        inBoundsP w (sx, sy) → inBoundsP w (ex, ey) →
        (findPath w sx sy ex ey).length = heuristic sx sy ex ey) := by
  obtain ⟨r, -, hfp, hseq, hne⟩ := findPath_main w sx sy ex ey
  rw [hfp]
  by_cases hse : ((sx, sy) : GPos) = (ex, ey)
  · rw [hseq hse]
    have h0 : IsDist w (sx, sy) (ex, ey) 0 := by
      rw [← hse]
      exact isDist_start
    refine ⟨h0, ?_⟩
    intro _ _ _
    show (0 : ℕ) = heuristic sx sy ex ey
    have hxy : sx = ex ∧ sy = ey :=
      ⟨congrArg Prod.fst hse, congrArg Prod.snd hse⟩
    unfold heuristic
    omega
  · obtain ⟨ht, hd⟩ := (hne hse).2 hreach
    refine ⟨hd, ?_⟩
    intro hpass hbs hbe
    have hlow : heuristic sx sy ex ey ≤ r.length := reach_manhattan_le hd.1
    have hup : ReachN w (sx, sy) (heuristic sx sy ex ey) (ex, ey) :=
      manhattan_reach w hpass (sx, sy) hbs (heuristic sx sy ex ey) (ex, ey)
        hbe rfl
    have hhigh : r.length ≤ heuristic sx sy ex ey := hd.2 _ hup
    omega

/-- C6 witness: a concrete reachable query on the demo grid. -/
theorem findPath_optimal_witness :
    IsDist demoPathWorld ((0 : ℤ), (0 : ℤ)) (2, 0)
        (findPath demoPathWorld 0 0 2 0).length ∧
      ((∀ p : GPos, inBoundsP demoPathWorld p →
          isPassable demoPathWorld p.1 p.2 = true) →
        inBoundsP demoPathWorld (0, 0) → inBoundsP demoPathWorld (2, 0) →
        (findPath demoPathWorld 0 0 2 0).length = heuristic 0 0 2 0) :=
  findPath_optimal demoPathWorld 0 0 2 0
    ⟨2, @ReachN.succ demoPathWorld (0, 0) 1 (1, 0) (2, 0)
      (@ReachN.succ demoPathWorld (0, 0) 0 (0, 0) (1, 0) ReachN.zero
        (by decide)) (by decide)⟩

/-- C7: the loop returns a value within the fuel budget for every query (no
non-termination and no exception); an unreachable goal gives the empty
path; a query from a cell to itself gives the empty path; and a reachable
distinct goal gives a non-empty path whose last cell is the goal. -/
theorem findPath_termination (w : WorldState) (sx sy ex ey : ℤ) :
    (∃ r, aLoop w (ex, ey) (aFuel w) (initAState sx sy ex ey) = some r) ∧
      (¬ Reaches w (sx, sy) (ex, ey) → findPath w sx sy ex ey = []) ∧
      (((sx, sy) : GPos) = (ex, ey) → findPath w sx sy ex ey = []) ∧
      (Reaches w (sx, sy) (ex, ey) → ((sx, sy) : GPos) ≠ (ex, ey) →
        findPath w sx sy ex ey ≠ [] ∧
        (findPath w sx sy ex ey).getLast? = some ((ex, ey) : GPos)) := by
  obtain ⟨r, hsome, hfp, hseq, hne⟩ := findPath_main w sx sy ex ey
  refine ⟨⟨r, hsome⟩, ?_, ?_, ?_⟩
  · intro hnr
    by_cases hse : ((sx, sy) : GPos) = (ex, ey)
    · rw [hfp, hseq hse]
    · rw [hfp, (hne hse).1 hnr]
  · intro hse
    rw [hfp, hseq hse]
  · intro hr hse
    obtain ⟨ht, -⟩ := (hne hse).2 hr
    have hchain := trace_chain ht
    have hrne : r ≠ [] := by
      intro he
      exact hse (hchain.2.2 he).symm
    rw [hfp]
    exact ⟨hrne, hchain.2.1 hrne⟩

/-- C10: a non-empty returned path is a contiguous 4-connected chain from
the start cell, its last cell is the goal, and every cell on it is in
bounds and passable on the queried snapshot. -/
theorem findPath_chain (w : WorldState) (sx sy ex ey : ℤ)
    (hne : findPath w sx sy ex ey ≠ []) :
    List.Chain (stepOK w) (sx, sy) (findPath w sx sy ex ey) ∧
      (findPath w sx sy ex ey).getLast? = some ((ex, ey) : GPos) ∧
      ∀ p ∈ findPath w sx sy ex ey,
        inBoundsP w p ∧ isPassable w p.1 p.2 = true := by
  obtain ⟨r, -, hfp, hseq, hcase⟩ := findPath_main w sx sy ex ey
  rw [hfp] at hne ⊢
  by_cases hse : ((sx, sy) : GPos) = (ex, ey)
  · exact absurd (hseq hse) hne
  · by_cases hr : Reaches w (sx, sy) (ex, ey)
    · obtain ⟨ht, -⟩ := (hcase hse).2 hr
      have hchain := trace_chain ht
      exact ⟨hchain.1, hchain.2.1 hne, trace_mem ht⟩
    · exact absurd ((hcase hse).1 hr) hne

/-- C10 witness: the concrete query returns a non-empty valid chain. -/
theorem findPath_chain_witness :
    List.Chain (stepOK demoPathWorld) (0, 0) (findPath demoPathWorld 0 0 2 0) ∧
      (findPath demoPathWorld 0 0 2 0).getLast? = some (((2 : ℤ), (0 : ℤ))) ∧
      ∀ p ∈ findPath demoPathWorld 0 0 2 0,
        inBoundsP demoPathWorld p ∧ isPassable demoPathWorld p.1 p.2 = true :=
  findPath_chain demoPathWorld 0 0 2 0 (by decide)
